import Mathlib

/-!
# Box blur (`src/src/image.hpp`): sequential and strip-parallel versions

Shallow embedding of `averageColor`, `sequentialBlur`, `parallel` and of the two counter trials
of `atomicExample`.

Modelling conventions.
* `Image = std::vector<std::vector<Color>>` is a list of rows, each a list of pixels.
* A `uint8_t` channel is a `Fin 256`; `static_cast<uint8_t>` of an `int` is reduction mod 256.
* `int` and `size_t` values are `Int` and `Nat`.  Every intermediate value of the code is
  bounded by the grid dimensions or by `9 * 255`, so no wrap-around is modelled other than the
  `uint8_t` cast; grid dimensions are taken to fit in an `int`, as the code itself assumes
  (`int height = input.size()`).
* Undefined behaviour (indexing a vector out of range, dividing by zero) is the result `none`.
* The worker threads of `parallel` are run one after the other, in the order they are launched;
  `runTasks` takes the list of strips explicitly.
* The worker threads of `atomicExample` are a transition system: a schedule lists which worker
  takes the next step. A `std::mutex` has at most one holder and blocks the others, an increment
  of a plain `int` is a load then a store, and an increment of a `std::atomic<int>` is one
  step. Steps on a worker's own loop variable are merged into its next shared step. The trials
  start with all workers launched and end when every worker has left its loop (all joins
  return).
-/

namespace Blur

/-! ## Data model -/

/-- RGB pixel, `struct Color`: three `uint8_t` channels. -/
structure Color where
  r : Fin 256
  g : Fin 256
  b : Fin 256
deriving DecidableEq, Repr

/-- Grid of pixels, `using Image = std::vector<std::vector<Color>>`: `image[y][x]`. -/
abbrev Image := List (List Color)

/-- Conversion `static_cast<uint8_t>(v)` of an `int`. -/
def toUInt8 (v : Int) : Fin 256 := ⟨(v % 256).toNat, by omega⟩

/-- Local accumulators of `averageColor`: `sum_r`, `sum_g`, `sum_b`, `count`. -/
structure Sums where
  sum_r : Int
  sum_g : Int
  sum_b : Int
  count : Int
deriving DecidableEq, Repr

/-! ## `averageColor` -/

/-- Body of the inner loop of `averageColor` (lines 45-52) for one offset `(dx, dy)`.
The test `nx >= 0 && ny >= 0 && nx < image[0].size() && ny < image.size()` is short-circuit:
`image[0]` is only touched once `nx` and `ny` are known to be non-negative, and by then their
conversion to `size_t` for the two comparisons keeps their values. -/
def sampleStep (image : Image) (x y dy : Int) (acc : Sums) (dx : Int) : Option Sums :=
  let nx := x + dx
  let ny := y + dy
  if nx ≥ 0 ∧ ny ≥ 0 then
    match image[0]? with
    | none => none
    | some row0 =>
      if nx < (row0.length : Int) ∧ ny < (image.length : Int) then
        match image[ny.toNat]? with
        | none => none
        | some row =>
          match row[nx.toNat]? with
          | none => none
          | some c =>
            some ⟨acc.sum_r + c.r.val, acc.sum_g + c.g.val, acc.sum_b + c.b.val, acc.count + 1⟩
      else some acc
  else some acc

/-- The two nested loops of `averageColor` (lines 40-54): `dy` outer, `dx` inner, both running
over `-1, 0, 1`, starting from all-zero accumulators. -/
def averageSums (image : Image) (x y : Int) : Option Sums :=
  ([-1, 0, 1] : List Int).foldlM
    (fun acc dy => ([-1, 0, 1] : List Int).foldlM (sampleStep image x y dy) acc)
    ⟨0, 0, 0, 0⟩

/-- Function `averageColor(image, x, y)`: the accumulated channel sums divided by `count`
(C++ `int` division, truncating) and cast to `uint8_t`. -/
def averageColor (image : Image) (x y : Int) : Option Color :=
  match averageSums image x y with
  | none => none
  | some s =>
    if s.count = 0 then none
    else some ⟨toUInt8 (s.sum_r.tdiv s.count), toUInt8 (s.sum_g.tdiv s.count),
               toUInt8 (s.sum_b.tdiv s.count)⟩

/-! ## `sequentialBlur` -/

/-- Assignment `output[y][x] = c`. -/
def setPixel (output : Image) (y x : Nat) (c : Color) : Option Image :=
  match output[y]? with
  | none => none
  | some row => if x < row.length then some (output.set y (row.set x c)) else none

/-- Row loop `for (size_t x = 0; x < input[y].size(); ++x) output[y][x] = averageColor(input, x, y);`
which is the body of the `y` loop both in `sequentialBlur` (lines 65-67) and in `blur_task`
(lines 81-83). -/
def blurRow (input output : Image) (y : Nat) : Option Image :=
  match input[y]? with
  | none => none
  | some row =>
    (List.range row.length).foldlM
      (fun (out : Image) (x : Nat) =>
        match averageColor input (x : Int) (y : Int) with
        | none => none
        | some c => setPixel out y x c)
      output

/-- Function `sequentialBlur(input)`: `output` starts as a copy of `input`, then every row is
rewritten from `input`. -/
def sequentialBlur (input : Image) : Option Image :=
  (List.range input.length).foldlM (fun (output : Image) (y : Nat) => blurRow input output y) input

/-! ## `parallel` -/

/-- Variables captured by reference by the lambda `blur_task`: the `const` parameter `input`
and the local `output`. -/
structure Captures where
  input : Image
  output : Image
deriving DecidableEq, Repr

/-- Lambda `blur_task(start_y, end_y)` of `parallel` (lines 79-85): `y` is an `int` running
from `start_y` up to `end_y - 1`; indexing with a negative `y` is out of range. -/
def blur_task (env : Captures) (start_y end_y : Int) : Option Captures :=
  ((List.range (end_y - start_y).toNat).map (fun (k : Nat) => start_y + (k : Int))).foldlM
    (fun (e : Captures) (y : Int) =>
      if y < 0 then none
      else
        match blurRow e.input e.output y.toNat with
        | none => none
        | some out => some { e with output := out })
    env

/-- Arguments `(start_y, end_y)` handed to worker `i` (lines 77, 88-89). -/
def stripBounds (height num_threads i : Int) : Int × Int :=
  let strip_height := height.tdiv num_threads
  (i * strip_height, if i = num_threads - 1 then height else (i + 1) * strip_height)

/-- Strips of the launch loop `for (int i = 0; i < num_threads; ++i)` (lines 87-91), in
launch order. -/
def strips (height num_threads : Int) : List (Int × Int) :=
  (List.range num_threads.toNat).map (fun (i : Nat) => stripBounds height num_threads (i : Int))

/-- Run the given strip tasks one after the other on the captured variables. -/
def runTasks (env : Captures) (tasks : List (Int × Int)) : Option Captures :=
  tasks.foldlM (fun e t => blur_task e t.1 t.2) env

/-- Function `parallel(input, num_threads)`: `output` starts as a copy of `input`; the strip
height `height / num_threads` is computed first (a zero `num_threads` divides by zero), then
one task per strip runs, and `output` is returned after the joins. -/
def parallel (input : Image) (num_threads : Int) : Option Image :=
  if num_threads = 0 then none
  else (runTasks ⟨input, input⟩ (strips (input.length : Int) num_threads)).map (fun e => e.output)


/-! ## Specification-side notions -/

/-- Width that the code uses for the whole grid: `image[0].size()` (0 for the empty grid). -/
def width (image : Image) : Nat := (image.headD []).length

/-- Grid invariant of the data model: every row has the length of the first row. -/
def Rectangular (image : Image) : Prop := ∀ row ∈ image, row.length = width image

instance (image : Image) : Decidable (Rectangular image) := by
  unfold Rectangular; infer_instance

/-- Pixel in column `nx` of row `ny` (black outside the grid). -/
def pixelAt (image : Image) (nx ny : Int) : Color :=
  if 0 ≤ nx ∧ 0 ≤ ny then (image.getD ny.toNat []).getD nx.toNat ⟨0, 0, 0⟩ else ⟨0, 0, 0⟩

/-- Coordinate `p = (nx, ny)` lies inside the grid. -/
def inBounds (image : Image) (p : Int × Int) : Prop :=
  0 ≤ p.1 ∧ p.1 < (width image : Int) ∧ 0 ≤ p.2 ∧ p.2 < (image.length : Int)

instance (image : Image) (p : Int × Int) : Decidable (inBounds image p) := by
  unfold inBounds; infer_instance

/-- The nine coordinates `(x + dx, y + dy)` with `dx, dy ∈ {-1, 0, 1}`, row by row. -/
def window (x y : Int) : List (Int × Int) :=
  ([-1, 0, 1] : List Int).flatMap (fun dy => ([-1, 0, 1] : List Int).map (fun dx => (x + dx, y + dy)))

/-- The coordinates of the window that lie inside the grid. -/
def neighbours (image : Image) (x y : Int) : List (Int × Int) :=
  (window x y).filter (fun p => decide (inBounds image p))

/-- Sum of one channel over the in-bounds neighbourhood of `(x, y)`. -/
def channelSum (ch : Color → Fin 256) (image : Image) (x y : Int) : Nat :=
  ((neighbours image x y).map (fun p => (ch (pixelAt image p.1 p.2)).val)).sum

/-- Mean of the specification: channel sum divided by the number of in-bounds neighbours,
rounded down. -/
def channelMean (ch : Color → Fin 256) (image : Image) (x y : Int) : Nat :=
  channelSum ch image x y / (neighbours image x y).length

/-- Accumulators after one more sample `c` (lines 48-51). -/
def Sums.push (acc : Sums) (c : Color) : Sums :=
  ⟨acc.sum_r + c.r.val, acc.sum_g + c.g.val, acc.sum_b + c.b.val, acc.count + 1⟩

/-- Accumulators after sampling the pixels at the listed coordinates. -/
def tally (image : Image) (acc : Sums) (ps : List (Int × Int)) : Sums :=
  ps.foldl (fun a p => a.push (pixelAt image p.1 p.2)) acc

/-- Pixel whose channels are the means of the specification. -/
def meanColor (image : Image) (x y : Int) : Color :=
  ⟨toUInt8 (channelMean Color.r image x y), toUInt8 (channelMean Color.g image x y),
   toUInt8 (channelMean Color.b image x y)⟩

/-- Row `y` of the blurred grid according to the specification. -/
def blurredRow (input : Image) (y : Nat) : List Color :=
  (List.range (width input)).map (fun (x : Nat) => meanColor input (x : Int) (y : Int))

/-- Grid `output` has the dimensions of `input`: as many rows, each of the same length. -/
def SameDims (input output : Image) : Prop :=
  output.map List.length = input.map List.length

instance (input output : Image) : Decidable (SameDims input output) := by
  unfold SameDims; infer_instance

/-- Blurred grid according to the specification: row `y` is `blurredRow input y`. -/
def blurredGrid (input : Image) : Image :=
  (List.range input.length).map (blurredRow input)

/-- A grid of 2 rows and 3 columns, used to instantiate the theorems. -/
def sampleGrid : Image :=
  [[⟨1, 2, 3⟩, ⟨10, 20, 30⟩, ⟨100, 200, 250⟩], [⟨5, 5, 5⟩, ⟨7, 8, 9⟩, ⟨255, 255, 255⟩]]

/-- Every pixel of the grid has the colour `c`. -/
def Uniform (image : Image) (c : Color) : Prop := ∀ row ∈ image, ∀ p ∈ row, p = c

instance (image : Image) (c : Color) : Decidable (Uniform image c) := by
  unfold Uniform; infer_instance

/-- The 4 × 4 grid of black pixels. -/
def blackGrid4 : Image := List.replicate 4 (List.replicate 4 ⟨0, 0, 0⟩)

/-- A 2 × 2 grid of one colour, used to instantiate the theorems. -/
def greyGrid2 : Image := [[⟨7, 7, 7⟩, ⟨7, 7, 7⟩], [⟨7, 7, 7⟩, ⟨7, 7, 7⟩]]

/-- A grid of 1 row and 2 columns, used to instantiate the theorems. -/
def rowGrid : Image := [[⟨0, 0, 0⟩, ⟨255, 255, 255⟩]]

/-- Body of the inner loop of `averageColor` (lines 45-52), as `sampleStep`, with a log: the
second component lists the coordinates `(nx, ny)` at which `image[ny][nx]` has been read
(lines 48-50), in the order of the reads. -/
def sampleStepTraced (image : Image) (x y dy : Int) (st : Sums × List (Int × Int)) (dx : Int) :
    Option (Sums × List (Int × Int)) :=
  let nx := x + dx
  let ny := y + dy
  if nx ≥ 0 ∧ ny ≥ 0 then
    match image[0]? with
    | none => none
    | some row0 =>
      if nx < (row0.length : Int) ∧ ny < (image.length : Int) then
        match image[ny.toNat]? with
        | none => none
        | some row =>
          match row[nx.toNat]? with
          | none => none
          | some c =>
            some (⟨st.1.sum_r + c.r.val, st.1.sum_g + c.g.val, st.1.sum_b + c.b.val,
                    st.1.count + 1⟩, st.2 ++ [(nx, ny)])
      else some st
  else some st

/-- The two nested loops of `averageColor` (lines 40-54) with the log of the reads. -/
def averageSumsTraced (image : Image) (x y : Int) : Option (Sums × List (Int × Int)) :=
  ([-1, 0, 1] : List Int).foldlM
    (fun st dy => ([-1, 0, 1] : List Int).foldlM (sampleStepTraced image x y dy) st)
    (⟨0, 0, 0, 0⟩, [])

/-- Least value of one channel over the in-bounds neighbourhood of `(x, y)`; the fold starts
from 255, the largest value a channel can take. -/
def channelMin (ch : Color → Fin 256) (image : Image) (x y : Int) : Nat :=
  ((neighbours image x y).map (fun p => (ch (pixelAt image p.1 p.2)).val)).foldl min 255

/-- Greatest value of one channel over the in-bounds neighbourhood of `(x, y)`; the fold starts
from 0, the least value a channel can take. -/
def channelMax (ch : Color → Fin 256) (image : Image) (x y : Int) : Nat :=
  ((neighbours image x y).map (fun p => (ch (pixelAt image p.1 p.2)).val)).foldl max 0

/-! ## `atomicExample`: the two shared counters -/

/-- Point a worker of the mutex trial has reached in the loop body (lines 122-125):
about to construct the `lock_guard` (acquire `counter_mutex`), about to load `counter`, about
to store the incremented value, or about to leave the scope (release the mutex). -/
inductive Pc where
  | lock
  | load
  | store
  | unlock
deriving DecidableEq, Repr

/-- Private state of one worker thread running `task` in the mutex trial: the loop variable
`i`, the point reached in the body, and the value its `counter++` has loaded. -/
structure Worker where
  i : Nat
  pc : Pc
  reg : Int
deriving DecidableEq, Repr

/-- State of the mutex trial (lines 116-139): the shared `int counter`, the thread that holds
`counter_mutex` (if any), and the workers, indexed by launch order. -/
structure MutexTrial where
  counter : Int
  owner : Option Nat
  workers : List Worker
deriving DecidableEq, Repr

/-- State when the `num_threads` workers have been launched: `counter = 0`, the mutex free,
every worker at the head of its loop with `i = 0`. -/
def initMutex (num_threads : Nat) : MutexTrial :=
  ⟨0, none, List.replicate num_threads ⟨0, Pc.lock, 0⟩⟩

/-- One step of worker `t` in the mutex trial, `none` when `t` cannot move.
* At the loop head the worker goes on only while `i < num_iterations`, and the `lock_guard`
  constructor returns only if no thread holds the mutex (otherwise the worker is blocked).
* The statement `counter++` on the plain `int` is a load followed by a store of the loaded
  value plus one; other threads may move between the two.
* Leaving the scope destroys the `lock_guard`, which releases the mutex; then `++i`. -/
def stepMutex (num_iterations : Nat) (st : MutexTrial) (t : Nat) : Option MutexTrial :=
  match st.workers[t]? with
  | none => none
  | some w =>
    match w.pc with
    | Pc.lock =>
      if w.i < num_iterations ∧ st.owner = none then
        some { st with owner := some t, workers := st.workers.set t { w with pc := Pc.load } }
      else none
    | Pc.load =>
      some { st with workers := st.workers.set t { w with reg := st.counter, pc := Pc.store } }
    | Pc.store =>
      some { st with counter := w.reg + 1,
                     workers := st.workers.set t { w with pc := Pc.unlock } }
    | Pc.unlock =>
      some { st with owner := none,
                     workers := st.workers.set t { w with i := w.i + 1, pc := Pc.lock } }

/-- Run of the mutex trial under a schedule: the list names, step by step, the worker that
moves; `none` when the schedule asks a worker to move that cannot. -/
def runMutex (num_iterations : Nat) (st : MutexTrial) (sched : List Nat) : Option MutexTrial :=
  sched.foldlM (stepMutex num_iterations) st

/-- All workers of the mutex trial have left their loop, so every `join` returns (lines
132-134) and `counter` is read for printing. -/
def joinedMutex (num_iterations : Nat) (st : MutexTrial) : Prop :=
  ∀ w ∈ st.workers, w.pc = Pc.lock ∧ ¬ w.i < num_iterations

instance (num_iterations : Nat) (st : MutexTrial) : Decidable (joinedMutex num_iterations st) := by
  unfold joinedMutex; infer_instance

/-- State of the atomic trial (lines 142-163): the `std::atomic<int> counter` and the loop
variable `i` of every worker, indexed by launch order. -/
structure AtomicTrial where
  counter : Int
  loops : List Nat
deriving DecidableEq, Repr

/-- State when the `num_threads` workers of the atomic trial have been launched. -/
def initAtomic (num_threads : Nat) : AtomicTrial :=
  ⟨0, List.replicate num_threads 0⟩

/-- One step of worker `t` in the atomic trial: while `i < num_iterations`, the statement
`counter++` on the `std::atomic<int>` is a single indivisible read-modify-write; then `++i`.
The result is `none` when the worker has left its loop. -/
def stepAtomic (num_iterations : Nat) (st : AtomicTrial) (t : Nat) : Option AtomicTrial :=
  match st.loops[t]? with
  | none => none
  | some i =>
    if i < num_iterations then some ⟨st.counter + 1, st.loops.set t (i + 1)⟩ else none

/-- Run of the atomic trial under a schedule. -/
def runAtomic (num_iterations : Nat) (st : AtomicTrial) (sched : List Nat) : Option AtomicTrial :=
  sched.foldlM (stepAtomic num_iterations) st

/-- All workers of the atomic trial have left their loop. -/
def joinedAtomic (num_iterations : Nat) (st : AtomicTrial) : Prop :=
  ∀ i ∈ st.loops, ¬ i < num_iterations

instance (num_iterations : Nat) (st : AtomicTrial) :
    Decidable (joinedAtomic num_iterations st) := by
  unfold joinedAtomic; infer_instance

/-- Progress of a worker of the mutex trial as seen in `counter`: its completed iterations,
plus one once its store is done and the iteration not yet counted in `i`. -/
def Worker.credit (w : Worker) : Int :=
  (w.i : Int) + (if w.pc = Pc.unlock then 1 else 0)

/-- Number of the point `pc` within the loop body. -/
def Pc.index : Pc → Int
  | Pc.lock => 0
  | Pc.load => 1
  | Pc.store => 2
  | Pc.unlock => 3

/-- Steps a worker of the mutex trial still has to take: four per remaining iteration. -/
def Worker.remaining (num_iterations : Nat) (w : Worker) : Int :=
  4 * ((num_iterations : Int) - (w.i : Int)) - w.pc.index

/-- Steps the mutex trial still has to take. -/
def remainingMutex (num_iterations : Nat) (st : MutexTrial) : Int :=
  (st.workers.map (Worker.remaining num_iterations)).sum

/-- Invariant of the mutex trial. Every worker has `i ≤ num_iterations`; a worker inside the
loop body holds the mutex and has `i < num_iterations`; a worker about to store has loaded the
current value of `counter`; the holder of the mutex is inside the body; and `counter` is the
sum of the workers' credits. -/
structure MutexInv (num_iterations : Nat) (st : MutexTrial) : Prop where
  bound : ∀ (t : Nat) (w : Worker), st.workers[t]? = some w → w.i ≤ num_iterations
  inside : ∀ (t : Nat) (w : Worker), st.workers[t]? = some w → w.pc ≠ Pc.lock →
    st.owner = some t ∧ w.i < num_iterations
  loaded : ∀ (t : Nat) (w : Worker), st.workers[t]? = some w → w.pc = Pc.store →
    w.reg = st.counter
  held : ∀ t : Nat, st.owner = some t → ∃ w : Worker, st.workers[t]? = some w ∧ w.pc ≠ Pc.lock
  total : st.counter = (st.workers.map Worker.credit).sum

/-- Steps the atomic trial still has to take: one per remaining iteration. -/
def remainingAtomic (num_iterations : Nat) (st : AtomicTrial) : Int :=
  (st.loops.map (fun (i : Nat) => (num_iterations : Int) - (i : Int))).sum

/-- Invariant of the atomic trial: every worker has `i ≤ num_iterations`, and `counter` is the
sum of the loop variables. -/
structure AtomicInv (num_iterations : Nat) (st : AtomicTrial) : Prop where
  bound : ∀ i ∈ st.loops, i ≤ num_iterations
  total : st.counter = (st.loops.map (fun (i : Nat) => (i : Int))).sum

/-- Variant of `stepMutex` with the `lock_guard` of line 123 left out: the worker neither waits
for the mutex nor takes it. It is not part of the source; it only serves to show what the
guard is needed for. -/
def stepUnguarded (num_iterations : Nat) (st : MutexTrial) (t : Nat) : Option MutexTrial :=
  match st.workers[t]? with
  | none => none
  | some w =>
    match w.pc with
    | Pc.lock =>
      if w.i < num_iterations then
        some { st with workers := st.workers.set t { w with pc := Pc.load } }
      else none
    | Pc.load =>
      some { st with workers := st.workers.set t { w with reg := st.counter, pc := Pc.store } }
    | Pc.store =>
      some { st with counter := w.reg + 1,
                     workers := st.workers.set t { w with pc := Pc.unlock } }
    | Pc.unlock =>
      some { st with workers := st.workers.set t { w with i := w.i + 1, pc := Pc.lock } }

/-! ## Lemmas on `averageColor` -/

theorem getElem?_zero_of_ne_nil {image : Image} (h : image ≠ []) :
    image[0]? = some (image.headD []) := by
  cases image with
  | nil => exact absurd rfl h
  | cons a t => simp

theorem row_length_of_rect {image : Image} (hr : Rectangular image) {k : Nat} {row : List Color}
    (h : image[k]? = some row) : row.length = width image :=
  hr row (List.getElem?_mem h)

theorem sampleStep_eq {image : Image} (hr : Rectangular image) (hne : image ≠ [])
    (x y dy : Int) (acc : Sums) (dx : Int) :
    sampleStep image x y dy acc dx =
      some (if inBounds image (x + dx, y + dy)
            then acc.push (pixelAt image (x + dx) (y + dy)) else acc) := by
  unfold sampleStep
  simp only [getElem?_zero_of_ne_nil hne, inBounds]
  by_cases h1 : x + dx ≥ 0 ∧ y + dy ≥ 0
  · by_cases h2 : x + dx < ((image.headD []).length : Int) ∧ y + dy < (image.length : Int)
    · have hy : (y + dy).toNat < image.length := by omega
      obtain ⟨row, hrow⟩ : ∃ row, image[(y + dy).toNat]? = some row :=
        ⟨_, List.getElem?_eq_getElem hy⟩
      have hlen := row_length_of_rect hr hrow
      have hx : (x + dx).toNat < row.length := by
        rw [hlen]; unfold width; omega
      have hc : row[(x + dx).toNat]? = some (row[(x + dx).toNat]) := List.getElem?_eq_getElem hx
      have hp : pixelAt image (x + dx) (y + dy) = row[(x + dx).toNat] := by
        unfold pixelAt
        rw [if_pos ⟨h1.1, h1.2⟩]
        simp [List.getD, hrow, hc]
      simp only [if_pos h1, if_pos h2, hrow, hc]
      rw [if_pos ⟨h1.1, by unfold width; exact h2.1, h1.2, h2.2⟩, hp]
      rfl
    · simp only [if_pos h1, if_neg h2]
      rw [if_neg]
      rintro ⟨_, h3, _, h4⟩
      exact h2 ⟨by unfold width at h3; exact h3, h4⟩
  · simp only [if_neg h1]
    rw [if_neg]
    rintro ⟨h3, _, h4, _⟩
    exact h1 ⟨h3, h4⟩

theorem inner_fold {image : Image} (hr : Rectangular image) (hne : image ≠ [])
    (x y dy : Int) (dxs : List Int) (acc : Sums) :
    dxs.foldlM (sampleStep image x y dy) acc =
      some (tally image acc
        ((dxs.map (fun dx => (x + dx, y + dy))).filter (fun p => decide (inBounds image p)))) := by
  induction dxs generalizing acc with
  | nil => rfl
  | cons dx rest ih =>
    rw [List.foldlM_cons, sampleStep_eq hr hne]
    simp only [Option.bind_eq_bind, Option.some_bind, ih, List.map_cons, List.filter_cons]
    by_cases h : inBounds image (x + dx, y + dy)
    · simp [h, tally]
    · simp [h]

theorem tally_append (image : Image) (acc : Sums) (ps qs : List (Int × Int)) :
    tally image acc (ps ++ qs) = tally image (tally image acc ps) qs := by
  simp [tally, List.foldl_append]

theorem outer_fold {image : Image} (hr : Rectangular image) (hne : image ≠ [])
    (x y : Int) (dxs dys : List Int) (acc : Sums) :
    dys.foldlM (fun a dy => dxs.foldlM (sampleStep image x y dy) a) acc =
      some (tally image acc
        ((dys.flatMap (fun dy => dxs.map (fun dx => (x + dx, y + dy)))).filter
          (fun p => decide (inBounds image p)))) := by
  induction dys generalizing acc with
  | nil => rfl
  | cons dy rest ih =>
    rw [List.foldlM_cons, inner_fold hr hne]
    simp only [Option.bind_eq_bind, Option.some_bind, ih, List.flatMap_cons, List.filter_append,
      tally_append]

theorem averageSums_eq {image : Image} (hr : Rectangular image) (hne : image ≠ []) (x y : Int) :
    averageSums image x y = some (tally image ⟨0, 0, 0, 0⟩ (neighbours image x y)) := by
  unfold averageSums neighbours window
  exact outer_fold hr hne x y _ _ _

theorem tally_count (image : Image) (ps : List (Int × Int)) (acc : Sums) :
    (tally image acc ps).count = acc.count + ps.length := by
  induction ps generalizing acc with
  | nil => simp [tally]
  | cons p rest ih =>
    have := ih (acc.push (pixelAt image p.1 p.2))
    simp only [tally, List.foldl_cons] at this ⊢
    rw [this]
    simp [Sums.push]
    omega

theorem tally_sum_r (image : Image) (ps : List (Int × Int)) (acc : Sums) :
    (tally image acc ps).sum_r
      = acc.sum_r + ((ps.map (fun p => (pixelAt image p.1 p.2).r.val)).sum : Nat) := by
  induction ps generalizing acc with
  | nil => simp [tally]
  | cons p rest ih =>
    have := ih (acc.push (pixelAt image p.1 p.2))
    simp only [tally, List.foldl_cons] at this ⊢
    rw [this]
    simp [Sums.push]
    omega

theorem tally_sum_g (image : Image) (ps : List (Int × Int)) (acc : Sums) :
    (tally image acc ps).sum_g
      = acc.sum_g + ((ps.map (fun p => (pixelAt image p.1 p.2).g.val)).sum : Nat) := by
  induction ps generalizing acc with
  | nil => simp [tally]
  | cons p rest ih =>
    have := ih (acc.push (pixelAt image p.1 p.2))
    simp only [tally, List.foldl_cons] at this ⊢
    rw [this]
    simp [Sums.push]
    omega

theorem tally_sum_b (image : Image) (ps : List (Int × Int)) (acc : Sums) :
    (tally image acc ps).sum_b
      = acc.sum_b + ((ps.map (fun p => (pixelAt image p.1 p.2).b.val)).sum : Nat) := by
  induction ps generalizing acc with
  | nil => simp [tally]
  | cons p rest ih =>
    have := ih (acc.push (pixelAt image p.1 p.2))
    simp only [tally, List.foldl_cons] at this ⊢
    rw [this]
    simp [Sums.push]
    omega

theorem toUInt8_natCast {q : Nat} (h : q < 256) : (toUInt8 (q : Int)).val = q := by
  unfold toUInt8
  simp only
  omega

theorem map_sum_le (ch : Color → Fin 256) (image : Image) (ps : List (Int × Int)) :
    (ps.map (fun p => (ch (pixelAt image p.1 p.2)).val)).sum ≤ 255 * ps.length := by
  induction ps with
  | nil => simp
  | cons p rest ih =>
    have := (ch (pixelAt image p.1 p.2)).isLt
    simp only [List.map_cons, List.sum_cons, List.length_cons]
    omega

theorem channelMean_le (ch : Color → Fin 256) (image : Image) (x y : Int) :
    channelMean ch image x y ≤ 255 := by
  unfold channelMean channelSum
  have h := map_sum_le ch image (neighbours image x y)
  by_cases h0 : (neighbours image x y).length = 0
  · simp [h0]
  · exact Nat.div_le_of_le_mul (by rw [Nat.mul_comm]; exact h)

theorem self_mem_neighbours {image : Image} {x y : Int} (h : inBounds image (x, y)) :
    (x, y) ∈ neighbours image x y := by
  unfold neighbours window
  simp [h]

theorem neighbours_length_pos {image : Image} {x y : Int} (h : inBounds image (x, y)) :
    0 < (neighbours image x y).length :=
  List.length_pos_of_mem (self_mem_neighbours h)

theorem tdiv_natCast (a b : Nat) : ((a : Int)).tdiv (b : Int) = ((a / b : Nat) : Int) := by
  rw [Int.tdiv_eq_ediv (Int.ofNat_nonneg a) (Int.ofNat_nonneg b)]
  norm_cast

theorem ne_nil_of_inBounds {image : Image} {p : Int × Int} (h : inBounds image p) :
    image ≠ [] := by
  rintro rfl
  obtain ⟨_, _, h3, h4⟩ := h
  simp at h4
  omega

theorem averageColor_eq {image : Image} (hr : Rectangular image) {x y : Int}
    (h : inBounds image (x, y)) : averageColor image x y = some (meanColor image x y) := by
  have hpos := neighbours_length_pos h
  unfold averageColor
  rw [averageSums_eq hr (ne_nil_of_inBounds h)]
  simp only [tally_count, tally_sum_r, tally_sum_g, tally_sum_b, Int.zero_add]
  rw [if_neg (by omega)]
  simp only [tdiv_natCast]
  rfl

/-! ## Lemmas on the row loop -/

theorem set_of_getElem? {α : Type} {l : List α} {i : Nat} {a : α} (h : l[i]? = some a) :
    l.set i a = l := by
  apply List.ext_getElem?
  intro k
  rw [List.getElem?_set]
  split
  · next hk =>
    subst hk
    split
    · exact h.symm
    · next h2 => rw [List.getElem?_eq_none (by omega)]
  · rfl

theorem blurRow_fold {input output : Image} (hr : Rectangular input) {y : Nat}
    (hy : y < input.length) {orow : List Color} (ho : output[y]? = some orow)
    (hlen : orow.length = width input) (n : Nat) (hn : n ≤ width input) :
    (List.range n).foldlM
      (fun (out : Image) (x : Nat) =>
        match averageColor input (x : Int) (y : Int) with
        | none => none
        | some c => setPixel out y x c)
      output
    = some (output.set y
        ((List.range n).map (fun (x : Nat) => meanColor input (x : Int) (y : Int))
          ++ orow.drop n)) := by
  have hyo : y < output.length := by
    rcases Nat.lt_or_ge y output.length with h | h
    · exact h
    · rw [List.getElem?_eq_none h] at ho; cases ho
  induction n with
  | zero =>
    simp only [List.range_zero, List.foldlM_nil, List.map_nil, List.nil_append, List.drop_zero]
    rw [set_of_getElem? ho]
    rfl
  | succ n ih =>
    have hn' : n < width input := hn
    have hin : inBounds input ((n : Int), (y : Int)) := by
      unfold inBounds
      simp only
      omega
    rw [List.range_succ, List.foldlM_append, ih (Nat.le_of_lt hn')]
    simp only [Option.bind_eq_bind, Option.some_bind, List.foldlM_cons, List.foldlM_nil,
      averageColor_eq hr hin]
    unfold setPixel
    have hrow : (output.set y ((List.range n).map
          (fun (x : Nat) => meanColor input (x : Int) (y : Int)) ++ orow.drop n))[y]?
        = some ((List.range n).map
          (fun (x : Nat) => meanColor input (x : Int) (y : Int)) ++ orow.drop n) := by
      rw [List.getElem?_set_self hyo]
    rw [hrow]
    have hlt : n < ((List.range n).map
          (fun (x : Nat) => meanColor input (x : Int) (y : Int)) ++ orow.drop n).length := by
      simp only [List.length_append, List.length_map, List.length_range, List.length_drop]
      omega
    simp only [if_pos hlt, List.set_set, Option.some_bind, Option.bind_some]
    have hdrop : orow.drop n = orow[n] :: orow.drop (n + 1) :=
      List.drop_eq_getElem_cons (by omega)
    rw [List.set_append_right _ _ (by simp), hdrop]
    simp only [List.length_map, List.length_range, Nat.sub_self, List.set_cons_zero,
      List.map_append, List.map_cons, List.map_nil, List.append_assoc, List.singleton_append]
    rfl

theorem blurRow_eq {input output : Image} (hr : Rectangular input) (hd : SameDims input output)
    {y : Nat} (hy : y < input.length) :
    blurRow input output y = some (output.set y (blurredRow input y)) := by
  have hyo : y < output.length := by
    have := congrArg List.length hd
    simp only [List.length_map] at this
    omega
  have hrow : input[y]? = some input[y] := List.getElem?_eq_getElem hy
  have hw : (input[y]).length = width input := row_length_of_rect hr hrow
  have ho : output[y]? = some output[y] := List.getElem?_eq_getElem hyo
  have hlen : (output[y]).length = width input := by
    have h1 : (output.map List.length)[y]? = (input.map List.length)[y]? := by rw [hd]
    simp only [List.getElem?_map, hrow, ho, Option.map_some'] at h1
    rw [Option.some.inj h1, hw]
  unfold blurRow
  rw [hrow]
  simp only [hw]
  rw [blurRow_fold hr hy ho hlen (width input) (Nat.le_refl _)]
  have : List.drop (width input) output[y] = [] := List.drop_eq_nil_of_le (by omega)
  rw [this, List.append_nil]
  rfl

theorem blurredRow_length (input : Image) (y : Nat) :
    (blurredRow input y).length = width input := by
  simp [blurredRow]

theorem sameDims_set {input output : Image} (hr : Rectangular input)
    (hd : SameDims input output) {y : Nat} (hy : y < input.length) :
    SameDims input (output.set y (blurredRow input y)) := by
  unfold SameDims at hd ⊢
  rw [List.map_set, blurredRow_length, hd]
  apply List.ext_getElem?
  intro k
  rw [List.getElem?_set]
  split
  · next h =>
    subst h
    split
    · simp only [List.getElem?_map, List.getElem?_eq_getElem hy, Option.map_some']
      rw [row_length_of_rect hr (List.getElem?_eq_getElem hy)]
    · next h2 =>
      simp only [List.length_map] at h2
      omega
  · rfl

theorem sameDims_length {input output : Image} (hd : SameDims input output) :
    output.length = input.length := by
  have := congrArg List.length hd
  simpa only [List.length_map] using this

theorem getElem?_set_row {output : Image} {y k : Nat} (row : List Color)
    (hy : y < output.length) :
    (output.set y row)[k]? = if k = y then some row else output[k]? := by
  rw [List.getElem?_set]
  by_cases h : y = k
  · subst h
    simp [hy]
  · rw [if_neg h, if_neg (fun h2 => h h2.symm)]

/-! ## Lemmas on the loops over rows -/

theorem rows_fold {input : Image} (hr : Rectangular input) (ys : List Nat) (output : Image)
    (hd : SameDims input output) (hys : ∀ y ∈ ys, y < input.length) :
    ∃ out, ys.foldlM (fun (o : Image) (y : Nat) => blurRow input o y) output = some out ∧
      SameDims input out ∧
      ∀ k : Nat, out[k]? = if k ∈ ys then some (blurredRow input k) else output[k]? := by
  induction ys generalizing output with
  | nil => exact ⟨output, rfl, hd, fun k => by simp⟩
  | cons y rest ih =>
    have hy : y < input.length := hys y (List.mem_cons_self _ _)
    have hyo : y < output.length := by rw [sameDims_length hd]; exact hy
    obtain ⟨out, h1, h2, h3⟩ := ih (output.set y (blurredRow input y)) (sameDims_set hr hd hy)
      (fun z hz => hys z (List.mem_cons_of_mem _ hz))
    refine ⟨out, ?_, h2, ?_⟩
    · rw [List.foldlM_cons, blurRow_eq hr hd hy]
      exact h1
    · intro k
      rw [h3 k, getElem?_set_row _ hyo]
      by_cases hk : k = y
      · subst hk
        simp
      · by_cases hm : k ∈ rest
        · simp [hm]
        · simp [hm, hk]

theorem sequentialBlur_eq {input : Image} (hr : Rectangular input) :
    sequentialBlur input = some (blurredGrid input) := by
  obtain ⟨out, h1, _, h3⟩ := rows_fold hr (List.range input.length) input rfl
    (fun y hy => List.mem_range.mp hy)
  unfold sequentialBlur
  rw [h1]
  congr 1
  apply List.ext_getElem?
  intro k
  rw [h3 k]
  unfold blurredGrid
  by_cases hk : k < input.length
  · simp [List.mem_range, hk, List.getElem?_range hk]
  · rw [if_neg (by simpa [List.mem_range] using hk), List.getElem?_eq_none (by omega),
      List.getElem?_eq_none (by simp; omega)]

theorem task_fold {input : Image} (hr : Rectangular input) (ys : List Int) (output : Image)
    (hd : SameDims input output) (hys : ∀ y ∈ ys, 0 ≤ y ∧ y < (input.length : Int)) :
    ∃ out, ys.foldlM
        (fun (e : Captures) (y : Int) =>
          if y < 0 then none
          else
            match blurRow e.input e.output y.toNat with
            | none => none
            | some out => some { e with output := out })
        ⟨input, output⟩ = some ⟨input, out⟩ ∧
      SameDims input out ∧
      ∀ k : Nat, out[k]? = if (k : Int) ∈ ys then some (blurredRow input k) else output[k]? := by
  induction ys generalizing output with
  | nil => exact ⟨output, rfl, hd, fun k => by simp⟩
  | cons y rest ih =>
    obtain ⟨hy0, hyH⟩ := hys y (List.mem_cons_self _ _)
    have hy : y.toNat < input.length := by omega
    have hyo : y.toNat < output.length := by rw [sameDims_length hd]; exact hy
    obtain ⟨out, h1, h2, h3⟩ := ih (output.set y.toNat (blurredRow input y.toNat))
      (sameDims_set hr hd hy) (fun z hz => hys z (List.mem_cons_of_mem _ hz))
    refine ⟨out, ?_, h2, ?_⟩
    · rw [List.foldlM_cons]
      simp only [if_neg (not_lt.mpr hy0), blurRow_eq hr hd hy]
      exact h1
    · intro k
      rw [h3 k, getElem?_set_row _ hyo]
      by_cases hk : (k : Int) = y
      · have hk2 : k = y.toNat := by omega
        subst hk2
        simp [hk]
      · have hk2 : k ≠ y.toNat := by omega
        by_cases hm : (k : Int) ∈ rest
        · simp [hm]
        · simp [hm, hk, hk2]

theorem mem_rowRange (s e : Int) (k : Int) :
    k ∈ (List.range (e - s).toNat).map (fun (j : Nat) => s + (j : Int)) ↔ s ≤ k ∧ k < e := by
  simp only [List.mem_map, List.mem_range]
  constructor
  · rintro ⟨j, hj, rfl⟩
    omega
  · rintro ⟨h1, h2⟩
    exact ⟨(k - s).toNat, by omega, by omega⟩

theorem blur_task_eq {input : Image} (hr : Rectangular input) (output : Image)
    (hd : SameDims input output) {s e : Int} (hs : 0 ≤ s) (he : e ≤ (input.length : Int)) :
    ∃ out, blur_task ⟨input, output⟩ s e = some ⟨input, out⟩ ∧
      SameDims input out ∧
      ∀ k : Nat, out[k]? =
        if s ≤ (k : Int) ∧ (k : Int) < e then some (blurredRow input k) else output[k]? := by
  obtain ⟨out, h1, h2, h3⟩ := task_fold hr
    ((List.range (e - s).toNat).map (fun (j : Nat) => s + (j : Int))) output hd
    (fun y hy => by
      have := (mem_rowRange s e y).mp hy
      omega)
  refine ⟨out, h1, h2, ?_⟩
  intro k
  rw [h3 k]
  by_cases hk : s ≤ (k : Int) ∧ (k : Int) < e
  · rw [if_pos ((mem_rowRange s e k).mpr hk), if_pos hk]
  · rw [if_neg (fun h => hk ((mem_rowRange s e k).mp h)), if_neg hk]

theorem runTasks_eq {input : Image} (hr : Rectangular input) (tasks : List (Int × Int))
    (output : Image) (hd : SameDims input output)
    (ht : ∀ t ∈ tasks, 0 ≤ t.1 ∧ t.2 ≤ (input.length : Int)) :
    ∃ out, runTasks ⟨input, output⟩ tasks = some ⟨input, out⟩ ∧
      SameDims input out ∧
      (∀ k : Nat, (∃ t ∈ tasks, t.1 ≤ (k : Int) ∧ (k : Int) < t.2) →
        out[k]? = some (blurredRow input k)) ∧
      (∀ k : Nat, (¬ ∃ t ∈ tasks, t.1 ≤ (k : Int) ∧ (k : Int) < t.2) →
        out[k]? = output[k]?) := by
  induction tasks generalizing output with
  | nil => exact ⟨output, rfl, hd, fun k h => by simp at h, fun k _ => rfl⟩
  | cons t rest ih =>
    obtain ⟨ht0, htH⟩ := ht t (List.mem_cons_self _ _)
    obtain ⟨mid, m1, m2, m3⟩ := blur_task_eq hr output hd ht0 htH
    obtain ⟨out, h1, h2, h3, h4⟩ := ih mid m2 (fun z hz => ht z (List.mem_cons_of_mem _ hz))
    refine ⟨out, ?_, h2, ?_, ?_⟩
    · unfold runTasks at h1 ⊢
      rw [List.foldlM_cons, m1]
      exact h1
    · intro k hk
      by_cases hrest : ∃ t ∈ rest, t.1 ≤ (k : Int) ∧ (k : Int) < t.2
      · exact h3 k hrest
      · rw [h4 k hrest, m3 k]
        obtain ⟨u, hu, hku⟩ := hk
        rcases List.mem_cons.mp hu with rfl | hu
        · rw [if_pos hku]
        · exact absurd ⟨u, hu, hku⟩ hrest
    · intro k hk
      have hrest : ¬ ∃ t ∈ rest, t.1 ≤ (k : Int) ∧ (k : Int) < t.2 := by
        rintro ⟨u, hu, hku⟩
        exact hk ⟨u, List.mem_cons_of_mem _ hu, hku⟩
      have hhead : ¬ (t.1 ≤ (k : Int) ∧ (k : Int) < t.2) :=
        fun h => hk ⟨t, List.mem_cons_self _ _, h⟩
      rw [h4 k hrest, m3 k, if_neg hhead]

/-! ## Lemmas on the strip bounds -/

theorem strip_height_facts {H N : Int} (hH : 0 ≤ H) (hN : 1 ≤ N) :
    0 ≤ H.tdiv N ∧ N * H.tdiv N ≤ H ∧ H < N * H.tdiv N + N ∧ H.tmod N = H - N * H.tdiv N := by
  have h0 : (0 : Int) ≤ N := by omega
  refine ⟨Int.tdiv_nonneg hH h0, ?_, ?_, Int.tmod_def H N⟩
  · rw [Int.tdiv_eq_ediv hH h0]
    exact Int.mul_ediv_self_le (by omega)
  · rw [Int.tdiv_eq_ediv hH h0]
    have := Int.lt_mul_ediv_self_add (x := H) (k := N) (by omega)
    omega

theorem strips_length (H N : Int) : (strips H N).length = N.toNat := by
  simp [strips]

theorem strips_getElem? (H N : Int) {i : Nat} (hi : i < N.toNat) :
    (strips H N)[i]? = some (stripBounds H N (i : Int)) := by
  simp [strips, List.getElem?_range hi]

theorem mem_strips {H N : Int} {t : Int × Int} :
    t ∈ strips H N ↔ ∃ i : Nat, (i : Int) < N ∧ t = stripBounds H N (i : Int) := by
  simp only [strips, List.mem_map, List.mem_range]
  constructor
  · rintro ⟨i, hi, rfl⟩
    exact ⟨i, by omega, rfl⟩
  · rintro ⟨i, hi, rfl⟩
    exact ⟨i, by omega, rfl⟩

theorem stripBounds_fst (H N i : Int) : (stripBounds H N i).1 = i * H.tdiv N := rfl

theorem stripBounds_snd_last (H N : Int) : (stripBounds H N (N - 1)).2 = H := by
  simp [stripBounds]

theorem stripBounds_snd_of_ne {H N i : Int} (h : i ≠ N - 1) :
    (stripBounds H N i).2 = (i + 1) * H.tdiv N := by
  simp [stripBounds, h]

theorem stripBounds_within {H N : Int} (hH : 0 ≤ H) (hN : 1 ≤ N) {i : Int} (hi0 : 0 ≤ i)
    (hi : i < N) : 0 ≤ (stripBounds H N i).1 ∧ (stripBounds H N i).2 ≤ H := by
  obtain ⟨hs, hle, _, _⟩ := strip_height_facts hH hN
  constructor
  · rw [stripBounds_fst]
    exact Int.mul_nonneg hi0 hs
  · by_cases hlast : i = N - 1
    · subst hlast
      rw [stripBounds_snd_last]
    · rw [stripBounds_snd_of_ne hlast]
      have h1 : (i + 1) * H.tdiv N ≤ N * H.tdiv N :=
        Int.mul_le_mul_of_nonneg_right (by omega) hs
      omega

theorem strips_cover {H N : Int} (hH : 0 ≤ H) (hN : 1 ≤ N) {y : Int} (hy0 : 0 ≤ y)
    (hy : y < H) : ∃ t ∈ strips H N, t.1 ≤ y ∧ y < t.2 := by
  obtain ⟨hs, hle, _, _⟩ := strip_height_facts hH hN
  by_cases hlast : (N - 1) * H.tdiv N ≤ y
  · refine ⟨stripBounds H N (N - 1), mem_strips.mpr ⟨(N - 1).toNat, by omega, ?_⟩, ?_, ?_⟩
    · rw [Int.toNat_of_nonneg (by omega)]
    · rw [stripBounds_fst]; exact hlast
    · rw [stripBounds_snd_last]; exact hy
  · have hlt : y < (N - 1) * H.tdiv N := by omega
    have hspos : 0 < H.tdiv N := by
      rcases lt_or_ge 0 (H.tdiv N) with h | h
      · exact h
      · have h0 : H.tdiv N = 0 := by omega
        rw [h0] at hlt
        omega
    have hq0 : 0 ≤ y / H.tdiv N := Int.ediv_nonneg hy0 hs
    have hq1 : y / H.tdiv N * H.tdiv N ≤ y := Int.ediv_mul_le y (by omega)
    have hq2 : y < (y / H.tdiv N + 1) * H.tdiv N := Int.lt_ediv_add_one_mul_self y hspos
    have hq3 : y / H.tdiv N < N - 1 := by
      by_contra hc
      have : (N - 1) * H.tdiv N ≤ y / H.tdiv N * H.tdiv N :=
        Int.mul_le_mul_of_nonneg_right (by omega) hs
      omega
    refine ⟨stripBounds H N (y / H.tdiv N),
      mem_strips.mpr ⟨(y / H.tdiv N).toNat, by omega, ?_⟩, ?_, ?_⟩
    · rw [Int.toNat_of_nonneg hq0]
    · rw [stripBounds_fst]; exact hq1
    · rw [stripBounds_snd_of_ne (by omega)]; exact hq2

theorem strips_within {H N : Int} (hH : 0 ≤ H) (hN : 1 ≤ N) {t : Int × Int}
    (ht : t ∈ strips H N) : 0 ≤ t.1 ∧ t.2 ≤ H := by
  obtain ⟨i, hi, rfl⟩ := mem_strips.mp ht
  exact stripBounds_within hH hN (by omega) hi

/-! ## Closed forms of the two blurs -/

theorem blurredGrid_getElem? (input : Image) (k : Nat) :
    (blurredGrid input)[k]? = if k < input.length then some (blurredRow input k) else none := by
  unfold blurredGrid
  by_cases hk : k < input.length
  · simp [hk, List.getElem?_range hk]
  · rw [if_neg hk, List.getElem?_eq_none (by simp; omega)]

theorem runTasks_strips_eq {input : Image} (hr : Rectangular input) {N : Int} (hN : 1 ≤ N) :
    runTasks ⟨input, input⟩ (strips (input.length : Int) N)
      = some ⟨input, blurredGrid input⟩ := by
  have hH : (0 : Int) ≤ (input.length : Int) := Int.ofNat_nonneg _
  obtain ⟨out, h1, _, h3, h4⟩ := runTasks_eq hr (strips (input.length : Int) N) input rfl
    (fun t ht => strips_within hH hN ht)
  rw [h1]
  congr 2
  apply List.ext_getElem?
  intro k
  rw [blurredGrid_getElem?]
  by_cases hk : k < input.length
  · rw [if_pos hk]
    exact h3 k (strips_cover hH hN (Int.ofNat_nonneg k) (by omega))
  · rw [if_neg hk, h4 k, List.getElem?_eq_none (by omega)]
    rintro ⟨t, ht, h5, h6⟩
    have := (strips_within hH hN ht).2
    omega

theorem parallel_eq {input : Image} (hr : Rectangular input) {N : Int} (hN : 1 ≤ N) :
    parallel input N = some (blurredGrid input) := by
  unfold parallel
  rw [if_neg (by omega), runTasks_strips_eq hr hN]
  rfl

/-! ## Number of samples -/

theorem inBounds_iff (G : Image) (a b : Int) :
    inBounds G (a, b) ↔ (0 ≤ a ∧ a < (width G : Int)) ∧ (0 ≤ b ∧ b < (G.length : Int)) := by
  unfold inBounds
  simp only
  constructor
  · rintro ⟨h1, h2, h3, h4⟩
    exact ⟨⟨h1, h2⟩, h3, h4⟩
  · rintro ⟨⟨h1, h2⟩, h3, h4⟩
    exact ⟨h1, h2, h3, h4⟩

theorem inner_count (G : Image) (x y dy : Int) (dxs : List Int) :
    (((dxs.map (fun dx => (x + dx, y + dy))).filter
        (fun p => decide (inBounds G p))).length : Int)
      = if 0 ≤ y + dy ∧ y + dy < (G.length : Int) then
          ((dxs.filter (fun dx => decide (0 ≤ x + dx ∧ x + dx < (width G : Int)))).length : Int)
        else 0 := by
  induction dxs with
  | nil => simp
  | cons dx rest ih =>
    simp only [List.map_cons, List.filter_cons, decide_eq_true_eq, inBounds_iff]
    by_cases h1 : 0 ≤ y + dy ∧ y + dy < (G.length : Int)
    · rw [if_pos h1] at ih ⊢
      by_cases h2 : 0 ≤ x + dx ∧ x + dx < (width G : Int)
      · rw [if_pos ⟨h2, h1⟩, if_pos h2]
        simp only [List.length_cons, Nat.cast_add, Nat.cast_one]
        rw [← ih]
      · rw [if_neg (fun h => h2 h.1), if_neg h2, ← ih]
    · rw [if_neg h1] at ih ⊢
      rw [if_neg (fun h => h1 h.2), ← ih]

theorem outer_count (G : Image) (x y : Int) (dxs dys : List Int) :
    ((((dys.flatMap (fun dy => dxs.map (fun dx => (x + dx, y + dy)))).filter
        (fun p => decide (inBounds G p))).length : Nat) : Int)
      = ((dxs.filter (fun dx => decide (0 ≤ x + dx ∧ x + dx < (width G : Int)))).length : Int)
        * ((dys.filter (fun dy => decide (0 ≤ y + dy ∧ y + dy < (G.length : Int)))).length
            : Int) := by
  induction dys with
  | nil => simp
  | cons dy rest ih =>
    rw [List.flatMap_cons, List.filter_append, List.length_append, Nat.cast_add, ih,
      inner_count, List.filter_cons]
    by_cases h1 : 0 ≤ y + dy ∧ y + dy < (G.length : Int)
    · simp only [h1, and_self, ↓reduceIte, decide_True, List.length_cons, Nat.cast_add,
        Nat.cast_one]
      rw [Int.mul_add, Int.mul_one, Int.add_comm]
    · simp only [h1, ↓reduceIte, decide_False, Int.zero_add]
      simp

theorem axis_count {x W : Int} (hW : 2 ≤ W) (h0 : 0 ≤ x) (h1 : x < W) :
    ((([-1, 0, 1] : List Int).filter (fun d => decide (0 ≤ x + d ∧ x + d < W))).length : Int)
      = if x = 0 ∨ x = W - 1 then 2 else 3 := by
  simp only [List.filter_cons, List.filter_nil, decide_eq_true_eq]
  split_ifs <;> first | rfl | omega

theorem neighbours_length {G : Image} {x y : Int} (hw : 2 ≤ width G) (hh : 2 ≤ G.length)
    (hx : 0 ≤ x ∧ x < (width G : Int)) (hy : 0 ≤ y ∧ y < (G.length : Int)) :
    ((neighbours G x y).length : Int)
      = (if x = 0 ∨ x = (width G : Int) - 1 then 2 else 3)
        * (if y = 0 ∨ y = (G.length : Int) - 1 then 2 else 3) := by
  unfold neighbours window
  rw [outer_count, axis_count (by omega) hx.1 hx.2, axis_count (by omega) hy.1 hy.2]

/-! ## Uniform grids -/

theorem pixelAt_mem {image : Image} (hr : Rectangular image) {nx ny : Int}
    (h : inBounds image (nx, ny)) : ∃ row ∈ image, pixelAt image nx ny ∈ row := by
  obtain ⟨h1, h2, h3, h4⟩ := h
  simp only at h1 h2 h3 h4
  have hy : ny.toNat < image.length := by omega
  have hrow : image[ny.toNat]? = some image[ny.toNat] := List.getElem?_eq_getElem hy
  have hlen := row_length_of_rect hr hrow
  have hx : nx.toNat < (image[ny.toNat]).length := by omega
  refine ⟨image[ny.toNat], List.getElem_mem hy, ?_⟩
  have hp : pixelAt image nx ny = (image[ny.toNat])[nx.toNat] := by
    unfold pixelAt
    rw [if_pos ⟨h1, h3⟩]
    simp [List.getD, hrow, List.getElem?_eq_getElem hx]
  rw [hp]
  exact List.getElem_mem hx

theorem sum_uniform {image : Image} (hr : Rectangular image) {c : Color}
    (hu : Uniform image c) (ch : Color → Fin 256) (ps : List (Int × Int))
    (hps : ∀ p ∈ ps, inBounds image p) :
    (ps.map (fun p => (ch (pixelAt image p.1 p.2)).val)).sum = ps.length * (ch c).val := by
  induction ps with
  | nil => simp
  | cons p rest ih =>
    obtain ⟨row, hrow, hmem⟩ := pixelAt_mem hr (hps p (List.mem_cons_self _ _))
    have hc : pixelAt image p.1 p.2 = c := hu row hrow _ hmem
    simp only [List.map_cons, List.sum_cons, List.length_cons, hc,
      ih (fun q hq => hps q (List.mem_cons_of_mem _ hq))]
    rw [Nat.succ_mul, Nat.add_comm]

theorem channelMean_uniform {image : Image} (hr : Rectangular image) {c : Color}
    (hu : Uniform image c) (ch : Color → Fin 256) {x y : Int} (h : inBounds image (x, y)) :
    channelMean ch image x y = (ch c).val := by
  unfold channelMean channelSum
  rw [sum_uniform hr hu ch (neighbours image x y)
    (fun p hp => by
      unfold neighbours at hp
      simpa using (List.mem_filter.mp hp).2)]
  exact Nat.mul_div_cancel_left _ (neighbours_length_pos h)

theorem meanColor_uniform {image : Image} (hr : Rectangular image) {c : Color}
    (hu : Uniform image c) {x y : Int} (h : inBounds image (x, y)) :
    meanColor image x y = c := by
  unfold meanColor
  rw [channelMean_uniform hr hu Color.r h, channelMean_uniform hr hu Color.g h,
    channelMean_uniform hr hu Color.b h]
  have hr' : toUInt8 ((c.r.val : Nat) : Int) = c.r := Fin.ext (toUInt8_natCast c.r.isLt)
  have hg' : toUInt8 ((c.g.val : Nat) : Int) = c.g := Fin.ext (toUInt8_natCast c.g.isLt)
  have hb' : toUInt8 ((c.b.val : Nat) : Int) = c.b := Fin.ext (toUInt8_natCast c.b.isLt)
  rw [hr', hg', hb']

theorem blurredGrid_uniform {image : Image} (hr : Rectangular image) {c : Color}
    (hu : Uniform image c) : blurredGrid image = image := by
  apply List.ext_getElem?
  intro k
  rw [blurredGrid_getElem?]
  by_cases hk : k < image.length
  · rw [if_pos hk, List.getElem?_eq_getElem hk]
    congr 1
    have hlen := row_length_of_rect hr (List.getElem?_eq_getElem hk)
    apply List.ext_getElem
    · rw [blurredRow_length, hlen]
    · intro x h1 h2
      have hx : x < width image := by rw [blurredRow_length] at h1; exact h1
      have hin : inBounds image ((x : Int), (k : Int)) :=
        ⟨Int.ofNat_nonneg x, by simp only; omega, Int.ofNat_nonneg k, by simp only; omega⟩
      simp only [blurredRow, List.getElem_map, List.getElem_range]
      rw [meanColor_uniform hr hu hin]
      exact (hu _ (List.getElem_mem hk) _ (List.getElem_mem h2)).symm
  · rw [if_neg hk, List.getElem?_eq_none (by omega)]

/-! ## Empty strips -/

theorem blur_task_empty (env : Captures) {s e : Int} (h : e ≤ s) :
    blur_task env s e = some env := by
  unfold blur_task
  have : (e - s).toNat = 0 := by omega
  rw [this]
  rfl

/-! ## Task lists covering the grid -/

theorem runTasks_of_cover {input : Image} (hr : Rectangular input) (tasks : List (Int × Int))
    (hin : ∀ t ∈ tasks, 0 ≤ t.1 ∧ t.2 ≤ (input.length : Int))
    (hcov : ∀ k : Nat, k < input.length → ∃ t ∈ tasks, t.1 ≤ (k : Int) ∧ (k : Int) < t.2) :
    runTasks ⟨input, input⟩ tasks = some ⟨input, blurredGrid input⟩ := by
  obtain ⟨out, h1, _, h3, h4⟩ := runTasks_eq hr tasks input rfl hin
  rw [h1]
  congr 2
  apply List.ext_getElem?
  intro k
  rw [blurredGrid_getElem?]
  by_cases hk : k < input.length
  · rw [if_pos hk]
    exact h3 k (hcov k hk)
  · rw [if_neg hk, h4 k, List.getElem?_eq_none (by omega)]
    rintro ⟨t, ht, h5, h6⟩
    have := (hin t ht).2
    omega

theorem strips_neg {H N : Int} (hN : N < 0) : strips H N = [] := by
  unfold strips
  have : N.toNat = 0 := by omega
  rw [this]
  rfl

/-! ## The log of reads of `averageColor` -/

theorem sampleStepTraced_fst (image : Image) (x y dy : Int) (st : Sums × List (Int × Int))
    (dx : Int) :
    (sampleStepTraced image x y dy st dx).map Prod.fst = sampleStep image x y dy st.1 dx := by
  unfold sampleStepTraced sampleStep
  simp only
  split_ifs
  · cases image[0]? with
    | none => rfl
    | some row0 =>
      simp only
      split_ifs
      · cases image[(y + dy).toNat]? with
        | none => rfl
        | some row =>
          simp only
          cases row[(x + dx).toNat]? with
          | none => rfl
          | some c => rfl
      · rfl
  · rfl

theorem inner_traced_fst (image : Image) (x y dy : Int) (dxs : List Int)
    (st : Sums × List (Int × Int)) :
    (dxs.foldlM (sampleStepTraced image x y dy) st).map Prod.fst
      = dxs.foldlM (sampleStep image x y dy) st.1 := by
  induction dxs generalizing st with
  | nil => rfl
  | cons dx rest ih =>
    have h := sampleStepTraced_fst image x y dy st dx
    rw [List.foldlM_cons, List.foldlM_cons, ← h]
    cases sampleStepTraced image x y dy st dx with
    | none => rfl
    | some st2 => exact ih st2

theorem outer_traced_fst (image : Image) (x y : Int) (dxs dys : List Int)
    (st : Sums × List (Int × Int)) :
    (dys.foldlM (fun st dy => dxs.foldlM (sampleStepTraced image x y dy) st) st).map Prod.fst
      = dys.foldlM (fun a dy => dxs.foldlM (sampleStep image x y dy) a) st.1 := by
  induction dys generalizing st with
  | nil => rfl
  | cons dy rest ih =>
    have h := inner_traced_fst image x y dy dxs st
    rw [List.foldlM_cons, List.foldlM_cons, ← h]
    cases dxs.foldlM (sampleStepTraced image x y dy) st with
    | none => rfl
    | some st2 => exact ih st2

theorem averageSumsTraced_fst (image : Image) (x y : Int) :
    (averageSumsTraced image x y).map Prod.fst = averageSums image x y :=
  outer_traced_fst image x y _ _ _

theorem sampleStepTraced_eq {image : Image} (hr : Rectangular image) (hne : image ≠ [])
    (x y dy : Int) (st : Sums × List (Int × Int)) (dx : Int) :
    sampleStepTraced image x y dy st dx =
      some (if inBounds image (x + dx, y + dy)
            then (st.1.push (pixelAt image (x + dx) (y + dy)), st.2 ++ [(x + dx, y + dy)])
            else st) := by
  unfold sampleStepTraced
  simp only [getElem?_zero_of_ne_nil hne, inBounds]
  by_cases h1 : x + dx ≥ 0 ∧ y + dy ≥ 0
  · by_cases h2 : x + dx < ((image.headD []).length : Int) ∧ y + dy < (image.length : Int)
    · have hy : (y + dy).toNat < image.length := by omega
      obtain ⟨row, hrow⟩ : ∃ row, image[(y + dy).toNat]? = some row :=
        ⟨_, List.getElem?_eq_getElem hy⟩
      have hlen := row_length_of_rect hr hrow
      have hx : (x + dx).toNat < row.length := by
        rw [hlen]; unfold width; omega
      have hc : row[(x + dx).toNat]? = some (row[(x + dx).toNat]) := List.getElem?_eq_getElem hx
      have hp : pixelAt image (x + dx) (y + dy) = row[(x + dx).toNat] := by
        unfold pixelAt
        rw [if_pos ⟨h1.1, h1.2⟩]
        simp [List.getD, hrow, hc]
      simp only [if_pos h1, if_pos h2, hrow, hc]
      rw [if_pos ⟨h1.1, by unfold width; exact h2.1, h1.2, h2.2⟩, hp]
      rfl
    · simp only [if_pos h1, if_neg h2]
      rw [if_neg]
      rintro ⟨_, h3, _, h4⟩
      exact h2 ⟨by unfold width at h3; exact h3, h4⟩
  · simp only [if_neg h1]
    rw [if_neg]
    rintro ⟨h3, _, h4, _⟩
    exact h1 ⟨h3, h4⟩

theorem inner_traced_fold {image : Image} (hr : Rectangular image) (hne : image ≠ [])
    (x y dy : Int) (dxs : List Int) (st : Sums × List (Int × Int)) :
    dxs.foldlM (sampleStepTraced image x y dy) st =
      some (tally image st.1
          ((dxs.map (fun dx => (x + dx, y + dy))).filter (fun p => decide (inBounds image p))),
        st.2 ++
          (dxs.map (fun dx => (x + dx, y + dy))).filter (fun p => decide (inBounds image p))) := by
  induction dxs generalizing st with
  | nil => simp [tally]
  | cons dx rest ih =>
    rw [List.foldlM_cons, sampleStepTraced_eq hr hne]
    simp only [Option.bind_eq_bind, Option.some_bind, ih, List.map_cons, List.filter_cons]
    by_cases h : inBounds image (x + dx, y + dy)
    · simp [h, tally]
    · simp [h]

theorem outer_traced_fold {image : Image} (hr : Rectangular image) (hne : image ≠ [])
    (x y : Int) (dxs dys : List Int) (st : Sums × List (Int × Int)) :
    dys.foldlM (fun a dy => dxs.foldlM (sampleStepTraced image x y dy) a) st =
      some (tally image st.1
          ((dys.flatMap (fun dy => dxs.map (fun dx => (x + dx, y + dy)))).filter
            (fun p => decide (inBounds image p))),
        st.2 ++
          (dys.flatMap (fun dy => dxs.map (fun dx => (x + dx, y + dy)))).filter
            (fun p => decide (inBounds image p))) := by
  induction dys generalizing st with
  | nil => simp [tally]
  | cons dy rest ih =>
    rw [List.foldlM_cons, inner_traced_fold hr hne]
    simp only [Option.bind_eq_bind, Option.some_bind, ih, List.flatMap_cons, List.filter_append,
      tally_append, List.append_assoc]

theorem averageSumsTraced_eq {image : Image} (hr : Rectangular image) (hne : image ≠ [])
    (x y : Int) :
    averageSumsTraced image x y
      = some (tally image ⟨0, 0, 0, 0⟩ (neighbours image x y), neighbours image x y) := by
  unfold averageSumsTraced neighbours window
  rw [outer_traced_fold hr hne]
  rfl

theorem neighbours_length_le (image : Image) (x y : Int) :
    (neighbours image x y).length ≤ 9 := by
  unfold neighbours
  exact List.length_filter_le _ _

theorem inBounds_of_mem_neighbours {image : Image} {x y : Int} {p : Int × Int}
    (hp : p ∈ neighbours image x y) : inBounds image p := by
  unfold neighbours at hp
  simpa using (List.mem_filter.mp hp).2

theorem index_ok {image : Image} (hr : Rectangular image) {p : Int × Int}
    (h : inBounds image p) :
    ∃ row c, image[p.2.toNat]? = some row ∧ row[p.1.toNat]? = some c := by
  obtain ⟨h1, h2, h3, h4⟩ := h
  have hy : p.2.toNat < image.length := by omega
  have hrow : image[p.2.toNat]? = some image[p.2.toNat] := List.getElem?_eq_getElem hy
  have hlen := row_length_of_rect hr hrow
  have hx : p.1.toNat < (image[p.2.toNat]).length := by omega
  exact ⟨_, _, hrow, List.getElem?_eq_getElem hx⟩

/-! ## Bounds on the channel quotients -/

theorem foldl_min_le (l : List Nat) (a : Nat) :
    l.foldl min a ≤ a ∧ ∀ v ∈ l, l.foldl min a ≤ v := by
  induction l generalizing a with
  | nil => simp
  | cons b t ih =>
    obtain ⟨h1, h2⟩ := ih (min a b)
    simp only [List.foldl_cons, List.mem_cons]
    refine ⟨Nat.le_trans h1 (Nat.min_le_left a b), ?_⟩
    rintro v (rfl | hv)
    · exact Nat.le_trans h1 (Nat.min_le_right a v)
    · exact h2 v hv

theorem foldl_min_mem (l : List Nat) (a : Nat) : l.foldl min a = a ∨ l.foldl min a ∈ l := by
  induction l generalizing a with
  | nil => simp
  | cons b t ih =>
    simp only [List.foldl_cons, List.mem_cons]
    rcases ih (min a b) with h | h
    · rcases Nat.le_total a b with hab | hab
      · left; rw [h, Nat.min_eq_left hab]
      · right; left; rw [h, Nat.min_eq_right hab]
    · right; right; exact h

theorem le_foldl_max (l : List Nat) (a : Nat) :
    a ≤ l.foldl max a ∧ ∀ v ∈ l, v ≤ l.foldl max a := by
  induction l generalizing a with
  | nil => simp
  | cons b t ih =>
    obtain ⟨h1, h2⟩ := ih (max a b)
    simp only [List.foldl_cons, List.mem_cons]
    refine ⟨Nat.le_trans (Nat.le_max_left a b) h1, ?_⟩
    rintro v (rfl | hv)
    · exact Nat.le_trans (Nat.le_max_right a v) h1
    · exact h2 v hv

theorem foldl_max_mem (l : List Nat) (a : Nat) : l.foldl max a = a ∨ l.foldl max a ∈ l := by
  induction l generalizing a with
  | nil => simp
  | cons b t ih =>
    simp only [List.foldl_cons, List.mem_cons]
    rcases ih (max a b) with h | h
    · rcases Nat.le_total a b with hab | hab
      · right; left; rw [h, Nat.max_eq_right hab]
      · left; rw [h, Nat.max_eq_left hab]
    · right; right; exact h

theorem mul_length_le_sum (l : List Nat) (lo : Nat) (h : ∀ v ∈ l, lo ≤ v) :
    lo * l.length ≤ l.sum := by
  induction l with
  | nil => simp
  | cons b t ih =>
    have hb := h b (List.mem_cons_self _ _)
    have ht := ih (fun v hv => h v (List.mem_cons_of_mem _ hv))
    simp only [List.length_cons, List.sum_cons, Nat.mul_succ]
    omega

theorem sum_le_mul_length (l : List Nat) (hi : Nat) (h : ∀ v ∈ l, v ≤ hi) :
    l.sum ≤ hi * l.length := by
  induction l with
  | nil => simp
  | cons b t ih =>
    have hb := h b (List.mem_cons_self _ _)
    have ht := ih (fun v hv => h v (List.mem_cons_of_mem _ hv))
    simp only [List.length_cons, List.sum_cons, Nat.mul_succ]
    omega

theorem channelMin_le_mean (ch : Color → Fin 256) {image : Image} {x y : Int}
    (h : inBounds image (x, y)) : channelMin ch image x y ≤ channelMean ch image x y := by
  unfold channelMin channelMean channelSum
  have hpos := neighbours_length_pos h
  have hlen : ((neighbours image x y).map (fun p => (ch (pixelAt image p.1 p.2)).val)).length
      = (neighbours image x y).length := List.length_map _ _
  have hb := mul_length_le_sum _ _ (foldl_min_le
    ((neighbours image x y).map (fun p => (ch (pixelAt image p.1 p.2)).val)) 255).2
  rw [hlen] at hb
  exact (Nat.le_div_iff_mul_le hpos).mpr hb

theorem mean_le_channelMax (ch : Color → Fin 256) (image : Image) (x y : Int) :
    channelMean ch image x y ≤ channelMax ch image x y := by
  unfold channelMax channelMean channelSum
  have hlen : ((neighbours image x y).map (fun p => (ch (pixelAt image p.1 p.2)).val)).length
      = (neighbours image x y).length := List.length_map _ _
  have hb := sum_le_mul_length _ _ (le_foldl_max
    ((neighbours image x y).map (fun p => (ch (pixelAt image p.1 p.2)).val)) 0).2
  rw [hlen] at hb
  exact Nat.div_le_of_le_mul (by rw [Nat.mul_comm]; exact hb)

theorem channelMin_attained (ch : Color → Fin 256) {image : Image} {x y : Int}
    (h : inBounds image (x, y)) :
    ∃ p ∈ neighbours image x y, (ch (pixelAt image p.1 p.2)).val = channelMin ch image x y := by
  unfold channelMin
  rcases foldl_min_mem
    ((neighbours image x y).map (fun p => (ch (pixelAt image p.1 p.2)).val)) 255 with h1 | h1
  · refine ⟨(x, y), self_mem_neighbours h, ?_⟩
    have h2 := (foldl_min_le
      ((neighbours image x y).map (fun p => (ch (pixelAt image p.1 p.2)).val)) 255).2
      ((ch (pixelAt image x y)).val)
      (List.mem_map.mpr ⟨(x, y), self_mem_neighbours h, rfl⟩)
    have h3 := (ch (pixelAt image x y)).isLt
    rw [h1] at h2 ⊢
    simp only at h2 ⊢
    omega
  · obtain ⟨p, hp, hv⟩ := List.mem_map.mp h1
    exact ⟨p, hp, hv⟩

theorem channelMax_attained (ch : Color → Fin 256) {image : Image} {x y : Int}
    (h : inBounds image (x, y)) :
    ∃ p ∈ neighbours image x y, (ch (pixelAt image p.1 p.2)).val = channelMax ch image x y := by
  unfold channelMax
  rcases foldl_max_mem
    ((neighbours image x y).map (fun p => (ch (pixelAt image p.1 p.2)).val)) 0 with h1 | h1
  · refine ⟨(x, y), self_mem_neighbours h, ?_⟩
    have h2 := (le_foldl_max
      ((neighbours image x y).map (fun p => (ch (pixelAt image p.1 p.2)).val)) 0).2
      ((ch (pixelAt image x y)).val)
      (List.mem_map.mpr ⟨(x, y), self_mem_neighbours h, rfl⟩)
    rw [h1] at h2 ⊢
    simp only at h2 ⊢
    omega
  · obtain ⟨p, hp, hv⟩ := List.mem_map.mp h1
    exact ⟨p, hp, hv⟩

theorem quotient_range (ch : Color → Fin 256) {image : Image} {x y : Int}
    (h : inBounds image (x, y)) :
    (channelMin ch image x y : Int) ≤ (channelMean ch image x y : Int) ∧
      (channelMean ch image x y : Int) ≤ (channelMax ch image x y : Int) ∧
      (0 : Int) ≤ (channelMean ch image x y : Int) ∧
      (channelMean ch image x y : Int) ≤ 255 := by
  have h1 := channelMin_le_mean ch h
  have h2 := mean_le_channelMax ch image x y
  have h3 := channelMean_le ch image x y
  omega

theorem tally_quotients (image : Image) (x y : Int) :
    (tally image ⟨0, 0, 0, 0⟩ (neighbours image x y)).sum_r.tdiv
        (tally image ⟨0, 0, 0, 0⟩ (neighbours image x y)).count
      = (channelMean Color.r image x y : Int) ∧
    (tally image ⟨0, 0, 0, 0⟩ (neighbours image x y)).sum_g.tdiv
        (tally image ⟨0, 0, 0, 0⟩ (neighbours image x y)).count
      = (channelMean Color.g image x y : Int) ∧
    (tally image ⟨0, 0, 0, 0⟩ (neighbours image x y)).sum_b.tdiv
        (tally image ⟨0, 0, 0, 0⟩ (neighbours image x y)).count
      = (channelMean Color.b image x y : Int) := by
  simp only [tally_count, tally_sum_r, tally_sum_g, tally_sum_b, Int.zero_add, tdiv_natCast]
  exact ⟨rfl, rfl, rfl⟩

theorem meanColor_val (image : Image) (x y : Int) :
    (meanColor image x y).r.val = channelMean Color.r image x y ∧
    (meanColor image x y).g.val = channelMean Color.g image x y ∧
    (meanColor image x y).b.val = channelMean Color.b image x y :=
  ⟨toUInt8_natCast (Nat.lt_succ_of_le (channelMean_le Color.r image x y)),
   toUInt8_natCast (Nat.lt_succ_of_le (channelMean_le Color.g image x y)),
   toUInt8_natCast (Nat.lt_succ_of_le (channelMean_le Color.b image x y))⟩

/-! ## The shared counters of `atomicExample` -/

theorem sum_map_set {α : Type} (f : α → Int) (l : List α) (t : Nat) (a b : α)
    (h : l[t]? = some a) : ((l.set t b).map f).sum = (l.map f).sum - f a + f b := by
  induction l generalizing t with
  | nil => simp at h
  | cons c rest ih =>
    cases t with
    | zero =>
      simp only [List.getElem?_cons_zero, Option.some.injEq] at h
      subst h
      simp only [List.set_cons_zero, List.map_cons, List.sum_cons]
      omega
    | succ n =>
      simp only [List.getElem?_cons_succ] at h
      simp only [List.set_cons_succ, List.map_cons, List.sum_cons, ih n h]
      omega

theorem lookup_set_cases {α : Type} {l : List α} {t k : Nat} {a b : α}
    (h : (l.set t a)[k]? = some b) : (k = t ∧ b = a) ∨ (k ≠ t ∧ l[k]? = some b) := by
  rw [List.getElem?_set] at h
  by_cases hk : t = k
  · rw [if_pos hk] at h
    split at h
    · exact Or.inl ⟨hk.symm, (Option.some.inj h).symm⟩
    · cases h
  · rw [if_neg hk] at h
    exact Or.inr ⟨fun e => hk e.symm, h⟩

theorem lookup_set_self {α : Type} {l : List α} {t : Nat} {a b : α} (h : l[t]? = some a) :
    (l.set t b)[t]? = some b := by
  have hlt : t < l.length := by
    rcases Nat.lt_or_ge t l.length with h1 | h1
    · exact h1
    · rw [List.getElem?_eq_none h1] at h; cases h
  exact List.getElem?_set_self hlt

theorem others_at_lock {K : Nat} {st : MutexTrial} (hI : MutexInv K st) {t : Nat}
    (ho : st.owner = none ∨ st.owner = some t) :
    ∀ (k : Nat) (w : Worker), k ≠ t → st.workers[k]? = some w → w.pc = Pc.lock := by
  intro k w hk hw
  by_contra hpc
  have h := (hI.inside k w hw hpc).1
  rcases ho with ho | ho
  · rw [ho] at h; cases h
  · rw [ho] at h
    exact hk (Option.some.inj h).symm

theorem inv_update {K : Nat} {st : MutexTrial} (hI : MutexInv K st) {t : Nat} {w w2 : Worker}
    {c2 : Int} {o2 : Option Nat} (hw : st.workers[t]? = some w)
    (ho : st.owner = none ∨ st.owner = some t)
    (hb : w2.i ≤ K)
    (hin : w2.pc ≠ Pc.lock → o2 = some t ∧ w2.i < K)
    (hld : w2.pc = Pc.store → w2.reg = c2)
    (hheld : ∀ k : Nat, o2 = some k → k = t ∧ w2.pc ≠ Pc.lock)
    (htot : c2 = st.counter - w.credit + w2.credit) :
    MutexInv K ⟨c2, o2, st.workers.set t w2⟩ := by
  have hoth := others_at_lock hI ho
  constructor
  · intro k v hv
    rcases lookup_set_cases hv with ⟨_, rfl⟩ | ⟨_, hv2⟩
    · exact hb
    · exact hI.bound k v hv2
  · intro k v hv hpc
    rcases lookup_set_cases hv with ⟨rfl, rfl⟩ | ⟨hk, hv2⟩
    · exact hin hpc
    · exact absurd (hoth k v hk hv2) hpc
  · intro k v hv hpc
    rcases lookup_set_cases hv with ⟨_, rfl⟩ | ⟨hk, hv2⟩
    · exact hld hpc
    · have := hoth k v hk hv2
      rw [this] at hpc
      cases hpc
  · intro k hk
    obtain ⟨rfl, hpc⟩ := hheld k hk
    exact ⟨w2, lookup_set_self hw, hpc⟩
  · show c2 = ((st.workers.set t w2).map Worker.credit).sum
    rw [sum_map_set Worker.credit st.workers t w w2 hw, htot, hI.total]

theorem remaining_update (K : Nat) (st : MutexTrial) {t : Nat} {w w2 : Worker} (c2 : Int)
    (o2 : Option Nat) (hw : st.workers[t]? = some w) :
    remainingMutex K ⟨c2, o2, st.workers.set t w2⟩
      = remainingMutex K st - w.remaining K + w2.remaining K := by
  unfold remainingMutex
  exact sum_map_set (Worker.remaining K) st.workers t w w2 hw

theorem stepMutex_inv {K : Nat} {st st2 : MutexTrial} {t : Nat} (hI : MutexInv K st)
    (hs : stepMutex K st t = some st2) :
    MutexInv K st2 ∧ remainingMutex K st2 = remainingMutex K st - 1 ∧
      st2.workers.length = st.workers.length := by
  unfold stepMutex at hs
  cases hw : st.workers[t]? with
  | none => rw [hw] at hs; cases hs
  | some w =>
    rw [hw] at hs
    simp only at hs
    cases hpc : w.pc with
    | lock =>
      rw [hpc] at hs
      simp only at hs
      by_cases hg : w.i < K ∧ st.owner = none
      · rw [if_pos hg] at hs
        have hs2 := Option.some.inj hs
        subst hs2
        refine ⟨inv_update hI hw (Or.inl hg.2) (Nat.le_of_lt hg.1)
          (fun _ => ⟨rfl, hg.1⟩) (fun h => by cases h)
          (fun k hk => ⟨(Option.some.inj hk).symm, by simp⟩) ?_, ?_, ?_⟩
        · simp [Worker.credit, hpc]
        · rw [remaining_update K st _ _ hw]
          simp only [Worker.remaining, hpc, Pc.index]
          omega
        · simp
      · rw [if_neg hg] at hs
        cases hs
    | load =>
      rw [hpc] at hs
      simp only at hs
      have hs2 := Option.some.inj hs
      subst hs2
      have hin := hI.inside t w hw (by rw [hpc]; simp)
      refine ⟨inv_update hI hw (Or.inr hin.1) (Nat.le_of_lt hin.2)
        (fun _ => hin) (fun _ => rfl)
        (fun k hk => ⟨by rw [hin.1] at hk; exact (Option.some.inj hk).symm, by simp⟩) ?_, ?_, ?_⟩
      · simp [Worker.credit, hpc]
      · rw [remaining_update K st _ _ hw]
        simp only [Worker.remaining, hpc, Pc.index]
        omega
      · simp
    | store =>
      rw [hpc] at hs
      simp only at hs
      have hs2 := Option.some.inj hs
      subst hs2
      have hin := hI.inside t w hw (by rw [hpc]; simp)
      have hreg := hI.loaded t w hw hpc
      refine ⟨inv_update hI hw (Or.inr hin.1) (Nat.le_of_lt hin.2)
        (fun _ => hin) (fun h => by simp at h)
        (fun k hk => ⟨by rw [hin.1] at hk; exact (Option.some.inj hk).symm, by simp⟩) ?_, ?_, ?_⟩
      · simp only [Worker.credit, hpc, hreg]
        simp only [reduceCtorEq, if_false, if_true]
        omega
      · rw [remaining_update K st _ _ hw]
        simp only [Worker.remaining, hpc, Pc.index]
        omega
      · simp
    | unlock =>
      rw [hpc] at hs
      simp only at hs
      have hs2 := Option.some.inj hs
      subst hs2
      have hin := hI.inside t w hw (by rw [hpc]; simp)
      refine ⟨inv_update hI hw (Or.inr hin.1) hin.2
        (fun h => by simp at h) (fun h => by simp at h)
        (fun k hk => by cases hk) ?_, ?_, ?_⟩
      · simp only [Worker.credit, hpc]
        simp only [reduceCtorEq, if_false, if_true]
        push_cast
        omega
      · rw [remaining_update K st _ _ hw]
        simp only [Worker.remaining, hpc, Pc.index]
        push_cast
        omega
      · simp

theorem sum_map_const {α : Type} (f : α → Int) (c : Int) (l : List α)
    (h : ∀ a ∈ l, f a = c) : (l.map f).sum = (l.length : Int) * c := by
  induction l with
  | nil => simp
  | cons a rest ih =>
    have ha := h a (List.mem_cons_self _ _)
    have hr := ih (fun b hb => h b (List.mem_cons_of_mem _ hb))
    simp only [List.map_cons, List.sum_cons, List.length_cons, ha, hr]
    push_cast
    rw [Int.add_mul, Int.one_mul, Int.add_comm]

theorem sum_map_nonneg {α : Type} (f : α → Int) (l : List α) (h : ∀ a ∈ l, 0 ≤ f a) :
    0 ≤ (l.map f).sum ∧ ((l.map f).sum = 0 → ∀ a ∈ l, f a = 0) := by
  induction l with
  | nil => simp
  | cons a rest ih =>
    have ha := h a (List.mem_cons_self _ _)
    obtain ⟨h1, h2⟩ := ih (fun b hb => h b (List.mem_cons_of_mem _ hb))
    simp only [List.map_cons, List.sum_cons, List.mem_cons]
    refine ⟨by omega, ?_⟩
    intro hsum b hb
    rcases hb with rfl | hb
    · omega
    · exact h2 (by omega) b hb

theorem initMutex_inv (N K : Nat) : MutexInv K (initMutex N) := by
  have hget : ∀ (t : Nat) (w : Worker), (initMutex N).workers[t]? = some w →
      w = ⟨0, Pc.lock, 0⟩ := by
    intro t w hw
    exact List.eq_of_mem_replicate (List.getElem?_mem hw)
  constructor
  · intro t w hw
    rw [hget t w hw]
    exact Nat.zero_le K
  · intro t w hw hpc
    rw [hget t w hw] at hpc
    exact absurd rfl hpc
  · intro t w hw hpc
    rw [hget t w hw] at hpc
    cases hpc
  · intro t ht
    cases ht
  · show (0 : Int) = ((List.replicate N (⟨0, Pc.lock, 0⟩ : Worker)).map Worker.credit).sum
    rw [sum_map_const Worker.credit 0 _ (fun a ha => by
      rw [List.eq_of_mem_replicate ha]; rfl)]
    simp

theorem initMutex_remaining (N K : Nat) :
    remainingMutex K (initMutex N) = 4 * (N : Int) * (K : Int) := by
  unfold remainingMutex initMutex
  rw [sum_map_const (Worker.remaining K) (4 * (K : Int)) _ (fun a ha => by
    rw [List.eq_of_mem_replicate ha]
    simp [Worker.remaining, Pc.index])]
  simp only [List.length_replicate]
  rw [Int.mul_comm 4 (N : Int), Int.mul_assoc]

theorem runMutex_inv {K : Nat} (sched : List Nat) {st st2 : MutexTrial} (hI : MutexInv K st)
    (hr : runMutex K st sched = some st2) :
    MutexInv K st2 ∧ remainingMutex K st2 = remainingMutex K st - (sched.length : Int) ∧
      st2.workers.length = st.workers.length := by
  induction sched generalizing st with
  | nil =>
    have h : st = st2 := Option.some.inj hr
    subst h
    exact ⟨hI, by simp, rfl⟩
  | cons t rest ih =>
    unfold runMutex at hr
    rw [List.foldlM_cons] at hr
    cases hstep : stepMutex K st t with
    | none => rw [hstep] at hr; cases hr
    | some st1 =>
      rw [hstep] at hr
      obtain ⟨i1, r1, l1⟩ := stepMutex_inv hI hstep
      obtain ⟨i2, r2, l2⟩ := ih i1 hr
      refine ⟨i2, ?_, by rw [l2, l1]⟩
      rw [r2, r1]
      simp only [List.length_cons]
      push_cast
      omega

theorem worker_remaining {K : Nat} {st : MutexTrial} (hI : MutexInv K st) {w : Worker}
    (hw : w ∈ st.workers) :
    0 ≤ w.remaining K ∧ (w.remaining K = 0 ↔ (w.pc = Pc.lock ∧ ¬ w.i < K)) := by
  obtain ⟨t, ht⟩ := List.mem_iff_getElem?.mp hw
  have hb := hI.bound t w ht
  have hin := hI.inside t w ht
  unfold Worker.remaining
  cases hpc : w.pc with
  | lock =>
    simp only [Pc.index, true_and]
    omega
  | load =>
    have := (hin (by rw [hpc]; simp)).2
    simp only [Pc.index, reduceCtorEq, false_and, iff_false]
    omega
  | store =>
    have := (hin (by rw [hpc]; simp)).2
    simp only [Pc.index, reduceCtorEq, false_and, iff_false]
    omega
  | unlock =>
    have := (hin (by rw [hpc]; simp)).2
    simp only [Pc.index, reduceCtorEq, false_and, iff_false]
    omega

theorem joined_of_remaining_zero {K : Nat} {st : MutexTrial} (hI : MutexInv K st)
    (h0 : remainingMutex K st = 0) : joinedMutex K st := by
  intro w hw
  have hz := (sum_map_nonneg (Worker.remaining K) st.workers
    (fun a ha => (worker_remaining hI ha).1)).2 h0 w hw
  exact (worker_remaining hI hw).2.mp hz

theorem remaining_zero_of_joined {K : Nat} {st : MutexTrial} (hI : MutexInv K st)
    (hj : joinedMutex K st) : remainingMutex K st = 0 := by
  unfold remainingMutex
  rw [sum_map_const (Worker.remaining K) 0 _
    (fun a ha => (worker_remaining hI ha).2.mpr (hj a ha))]
  simp

theorem counter_of_joined {K : Nat} {st : MutexTrial} (hI : MutexInv K st)
    (hj : joinedMutex K st) : st.counter = (st.workers.length : Int) * (K : Int) := by
  rw [hI.total]
  apply sum_map_const
  intro w hw
  obtain ⟨t, ht⟩ := List.mem_iff_getElem?.mp hw
  have hb := hI.bound t w ht
  obtain ⟨h1, h2⟩ := hj w hw
  have hi : w.i = K := by omega
  simp [Worker.credit, h1, hi]

theorem mutex_progress {K : Nat} {st : MutexTrial} (hI : MutexInv K st)
    (hnj : ¬ joinedMutex K st) :
    ∃ t, t < st.workers.length ∧ ∃ st2, stepMutex K st t = some st2 := by
  have hlt : ∀ {t : Nat} {w : Worker}, st.workers[t]? = some w → t < st.workers.length := by
    intro t w hw
    rcases Nat.lt_or_ge t st.workers.length with h1 | h1
    · exact h1
    · rw [List.getElem?_eq_none h1] at hw; cases hw
  by_cases hall : ∀ w ∈ st.workers, w.pc = Pc.lock
  · unfold joinedMutex at hnj
    push_neg at hnj
    obtain ⟨w, hw, hw2⟩ := hnj
    have hpc := hall w hw
    have hi : w.i < K := hw2 hpc
    obtain ⟨t, ht⟩ := List.mem_iff_getElem?.mp hw
    have hown : st.owner = none := by
      cases ho : st.owner with
      | none => rfl
      | some k =>
        obtain ⟨v, hv, hvpc⟩ := hI.held k ho
        exact absurd (hall v (List.getElem?_mem hv)) hvpc
    refine ⟨t, hlt ht, ?_⟩
    unfold stepMutex
    rw [ht]
    simp only [hpc]
    rw [if_pos ⟨hi, hown⟩]
    exact ⟨_, rfl⟩
  · push_neg at hall
    obtain ⟨w, hw, hpc⟩ := hall
    obtain ⟨t, ht⟩ := List.mem_iff_getElem?.mp hw
    refine ⟨t, hlt ht, ?_⟩
    unfold stepMutex
    rw [ht]
    cases hp : w.pc with
    | lock => exact absurd hp hpc
    | load => simp only [hp]; exact ⟨_, rfl⟩
    | store => simp only [hp]; exact ⟨_, rfl⟩
    | unlock => simp only [hp]; exact ⟨_, rfl⟩

theorem mutex_complete {K : Nat} (m : Nat) :
    ∀ st : MutexTrial, MutexInv K st → remainingMutex K st = (m : Int) →
      ∃ more st2, runMutex K st more = some st2 ∧ joinedMutex K st2 ∧ more.length = m := by
  induction m with
  | zero =>
    intro st hI h0
    exact ⟨[], st, rfl, joined_of_remaining_zero hI (by simpa using h0), rfl⟩
  | succ m ih =>
    intro st hI hm
    have hnj : ¬ joinedMutex K st := by
      intro hj
      rw [remaining_zero_of_joined hI hj] at hm
      push_cast at hm
      omega
    obtain ⟨t, _, st1, hstep⟩ := mutex_progress hI hnj
    obtain ⟨i1, r1, _⟩ := stepMutex_inv hI hstep
    obtain ⟨more, st2, hrun, hj, hlen⟩ := ih st1 i1 (by rw [r1, hm]; push_cast; omega)
    refine ⟨t :: more, st2, ?_, hj, by simp [hlen]⟩
    unfold runMutex
    rw [List.foldlM_cons, hstep]
    exact hrun

theorem stepAtomic_inv {K : Nat} {st st2 : AtomicTrial} {t : Nat} (hI : AtomicInv K st)
    (hs : stepAtomic K st t = some st2) :
    AtomicInv K st2 ∧ remainingAtomic K st2 = remainingAtomic K st - 1 ∧
      st2.loops.length = st.loops.length := by
  unfold stepAtomic at hs
  cases hw : st.loops[t]? with
  | none => rw [hw] at hs; cases hs
  | some i =>
    rw [hw] at hs
    simp only at hs
    by_cases hg : i < K
    · rw [if_pos hg] at hs
      have hs2 := Option.some.inj hs
      subst hs2
      refine ⟨⟨?_, ?_⟩, ?_, by simp⟩
      · intro j hj
        obtain ⟨k, hk⟩ := List.mem_iff_getElem?.mp hj
        rcases lookup_set_cases hk with ⟨_, rfl⟩ | ⟨_, hk2⟩
        · exact hg
        · exact hI.bound j (List.getElem?_mem hk2)
      · show st.counter + 1 = ((st.loops.set t (i + 1)).map (fun (i : Nat) => (i : Int))).sum
        rw [sum_map_set (fun (i : Nat) => (i : Int)) st.loops t i (i + 1) hw, hI.total]
        push_cast
        omega
      · unfold remainingAtomic
        show ((st.loops.set t (i + 1)).map (fun (i : Nat) => (K : Int) - (i : Int))).sum = _
        rw [sum_map_set (fun (i : Nat) => (K : Int) - (i : Int)) st.loops t i (i + 1) hw]
        push_cast
        omega
    · rw [if_neg hg] at hs
      cases hs

theorem initAtomic_inv (N K : Nat) : AtomicInv K (initAtomic N) := by
  constructor
  · intro i hi
    rw [List.eq_of_mem_replicate hi]
    exact Nat.zero_le K
  · show (0 : Int) = ((List.replicate N 0).map (fun (i : Nat) => (i : Int))).sum
    rw [sum_map_const (fun (i : Nat) => (i : Int)) 0 _ (fun a ha => by
      rw [List.eq_of_mem_replicate ha]; rfl)]
    simp

theorem initAtomic_remaining (N K : Nat) :
    remainingAtomic K (initAtomic N) = (N : Int) * (K : Int) := by
  unfold remainingAtomic initAtomic
  rw [sum_map_const (fun (i : Nat) => (K : Int) - (i : Int)) (K : Int) _ (fun a ha => by
    rw [List.eq_of_mem_replicate ha]
    simp)]
  simp only [List.length_replicate]

theorem runAtomic_inv {K : Nat} (sched : List Nat) {st st2 : AtomicTrial}
    (hI : AtomicInv K st) (hr : runAtomic K st sched = some st2) :
    AtomicInv K st2 ∧ remainingAtomic K st2 = remainingAtomic K st - (sched.length : Int) ∧
      st2.loops.length = st.loops.length := by
  induction sched generalizing st with
  | nil =>
    have h : st = st2 := Option.some.inj hr
    subst h
    exact ⟨hI, by simp, rfl⟩
  | cons t rest ih =>
    unfold runAtomic at hr
    rw [List.foldlM_cons] at hr
    cases hstep : stepAtomic K st t with
    | none => rw [hstep] at hr; cases hr
    | some st1 =>
      rw [hstep] at hr
      obtain ⟨i1, r1, l1⟩ := stepAtomic_inv hI hstep
      obtain ⟨i2, r2, l2⟩ := ih i1 hr
      refine ⟨i2, ?_, by rw [l2, l1]⟩
      rw [r2, r1]
      simp only [List.length_cons]
      push_cast
      omega

theorem atomic_joined_of_remaining_zero {K : Nat} {st : AtomicTrial} (hI : AtomicInv K st)
    (h0 : remainingAtomic K st = 0) : joinedAtomic K st := by
  intro i hi
  have hz := (sum_map_nonneg (fun (i : Nat) => (K : Int) - (i : Int)) st.loops
    (fun a ha => by have := hI.bound a ha; simp only; omega)).2 h0 i hi
  simp only at hz
  omega

theorem atomic_remaining_zero_of_joined {K : Nat} {st : AtomicTrial} (hI : AtomicInv K st)
    (hj : joinedAtomic K st) : remainingAtomic K st = 0 := by
  unfold remainingAtomic
  rw [sum_map_const (fun (i : Nat) => (K : Int) - (i : Int)) 0 _ (fun a ha => by
    have h1 := hI.bound a ha
    have h2 := hj a ha
    simp only
    omega)]
  simp

theorem atomic_counter_of_joined {K : Nat} {st : AtomicTrial} (hI : AtomicInv K st)
    (hj : joinedAtomic K st) : st.counter = (st.loops.length : Int) * (K : Int) := by
  rw [hI.total]
  apply sum_map_const
  intro i hi
  have h1 := hI.bound i hi
  have h2 := hj i hi
  omega

theorem atomic_progress {K : Nat} {st : AtomicTrial} (hnj : ¬ joinedAtomic K st) :
    ∃ t, t < st.loops.length ∧ ∃ st2, stepAtomic K st t = some st2 := by
  unfold joinedAtomic at hnj
  push_neg at hnj
  obtain ⟨i, hi, hlt⟩ := hnj
  obtain ⟨t, ht⟩ := List.mem_iff_getElem?.mp hi
  have htl : t < st.loops.length := by
    rcases Nat.lt_or_ge t st.loops.length with h1 | h1
    · exact h1
    · rw [List.getElem?_eq_none h1] at ht; cases ht
  refine ⟨t, htl, ?_⟩
  unfold stepAtomic
  rw [ht]
  simp only [if_pos hlt]
  exact ⟨_, rfl⟩

theorem atomic_complete {K : Nat} (m : Nat) :
    ∀ st : AtomicTrial, AtomicInv K st → remainingAtomic K st = (m : Int) →
      ∃ more st2, runAtomic K st more = some st2 ∧ joinedAtomic K st2 ∧ more.length = m := by
  induction m with
  | zero =>
    intro st hI h0
    exact ⟨[], st, rfl, atomic_joined_of_remaining_zero hI (by simpa using h0), rfl⟩
  | succ m ih =>
    intro st hI hm
    have hnj : ¬ joinedAtomic K st := by
      intro hj
      rw [atomic_remaining_zero_of_joined hI hj] at hm
      push_cast at hm
      omega
    obtain ⟨t, _, st1, hstep⟩ := atomic_progress hnj
    obtain ⟨i1, r1, _⟩ := stepAtomic_inv hI hstep
    obtain ⟨more, st2, hrun, hj, hlen⟩ := ih st1 i1 (by rw [r1, hm]; push_cast; omega)
    refine ⟨t :: more, st2, ?_, hj, by simp [hlen]⟩
    unfold runAtomic
    rw [List.foldlM_cons, hstep]
    exact hrun

theorem remainingMutex_nonneg {K : Nat} {st : MutexTrial} (hI : MutexInv K st) :
    0 ≤ remainingMutex K st :=
  (sum_map_nonneg (Worker.remaining K) st.workers (fun _ ha => (worker_remaining hI ha).1)).1

theorem remainingAtomic_nonneg {K : Nat} {st : AtomicTrial} (hI : AtomicInv K st) :
    0 ≤ remainingAtomic K st :=
  (sum_map_nonneg (fun (i : Nat) => (K : Int) - (i : Int)) st.loops
    (fun a ha => by have := hI.bound a ha; simp only; omega)).1

theorem initMutex_length (N : Nat) : (initMutex N).workers.length = N := by
  simp [initMutex]

theorem initAtomic_length (N : Nat) : (initAtomic N).loops.length = N := by
  simp [initAtomic]

theorem unguarded_loses_update :
    [0, 0, 1, 1, 0, 1, 0, 1].foldlM (stepUnguarded 1) (initMutex 2)
      = some ⟨1, none, [⟨1, Pc.lock, 0⟩, ⟨1, Pc.lock, 0⟩]⟩ := by
  decide

/-! ## Claims -/

/-- C1. For every rectangular grid `G` (the empty grid included) and every worker count
`N ≥ 1`, `parallel G N` returns a grid, and it is the very grid `sequentialBlur G` returns,
where `parallel` applies the `N` strip tasks to a copy of `G`. -/
theorem parallel_eq_sequentialBlur (G : Image) (N : Int) (hG : Rectangular G) (hN : 1 ≤ N) :
    parallel G N = sequentialBlur G ∧ ∃ out, parallel G N = some out := by
  rw [parallel_eq hG hN, sequentialBlur_eq hG]
  exact ⟨rfl, _, rfl⟩

theorem parallel_eq_sequentialBlur_witness :
    Rectangular sampleGrid ∧ (1 : Int) ≤ 2 ∧
      (parallel sampleGrid 2 = sequentialBlur sampleGrid ∧
        ∃ out, parallel sampleGrid 2 = some out) :=
  ⟨by decide, by decide, parallel_eq_sequentialBlur sampleGrid 2 (by decide) (by decide)⟩

/-- C2. For every height `H ≥ 0` and worker count `N ≥ 1` the strip bounds computed in
`parallel` are exactly `N` half-open ranges, range `i` being `[i*(H/N), (i+1)*(H/N))` and the
last one ending at `H`; a row lies in some range iff it lies in `[0, H)`; the ranges are
pairwise disjoint; and the last range has length `H / N + H mod N`. -/
theorem strips_partition (H N : Int) (hH : 0 ≤ H) (hN : 1 ≤ N) :
    ((strips H N).length : Int) = N ∧
    (∀ i : Nat, (i : Int) < N →
      (strips H N)[i]? = some ((i : Int) * H.tdiv N,
        if (i : Int) = N - 1 then H else ((i : Int) + 1) * H.tdiv N)) ∧
    (∀ y : Int, (∃ t ∈ strips H N, t.1 ≤ y ∧ y < t.2) ↔ (0 ≤ y ∧ y < H)) ∧
    (strips H N).Pairwise
      (fun a b => ∀ y : Int, ¬ ((a.1 ≤ y ∧ y < a.2) ∧ (b.1 ≤ y ∧ y < b.2))) ∧
    (∃ t, (strips H N).getLast? = some t ∧ t.2 - t.1 = H.tdiv N + H.tmod N) := by
  obtain ⟨hs, hle, hlt, hmod⟩ := strip_height_facts hH hN
  refine ⟨?_, ?_, ?_, ?_, ?_⟩
  · rw [strips_length]
    omega
  · intro i hi
    rw [strips_getElem? H N (by omega)]
    rfl
  · intro y
    constructor
    · rintro ⟨t, ht, h1, h2⟩
      have := strips_within hH hN ht
      omega
    · rintro ⟨h1, h2⟩
      exact strips_cover hH hN h1 h2
  · unfold strips
    rw [List.pairwise_map]
    refine List.Pairwise.imp_of_mem ?_ (List.pairwise_lt_range N.toNat)
    intro i j _ hj hij y
    rintro ⟨⟨_, h2⟩, ⟨h3, _⟩⟩
    have hjN : j < N.toNat := List.mem_range.mp hj
    rw [stripBounds_snd_of_ne (by omega)] at h2
    rw [stripBounds_fst] at h3
    have : ((i : Int) + 1) * H.tdiv N ≤ (j : Int) * H.tdiv N :=
      Int.mul_le_mul_of_nonneg_right (by omega) hs
    omega
  · refine ⟨stripBounds H N (N - 1), ?_, ?_⟩
    · rw [List.getLast?_eq_getElem?, strips_length, strips_getElem? H N (by omega)]
      congr 2
      omega
    · rw [stripBounds_snd_last, stripBounds_fst, hmod]
      have : (N - 1) * H.tdiv N = N * H.tdiv N - H.tdiv N := by
        rw [Int.sub_mul, Int.one_mul]
      omega

theorem strips_partition_witness :
    (0 : Int) ≤ 10 ∧ (1 : Int) ≤ 4 ∧ strips 10 4 = [(0, 2), (2, 4), (4, 6), (6, 10)] ∧
    (∃ t, (strips 10 4).getLast? = some t ∧ t.2 - t.1 = Int.tdiv 10 4 + Int.tmod 10 4) :=
  ⟨by decide, by decide, by decide, (strips_partition 10 4 (by decide) (by decide)).2.2.2.2⟩

/-- C3. For every rectangular grid and every coordinate `(x, y)` inside it, `averageColor`
returns a pixel each of whose channels equals the sum of that channel over the pixels at all
in-bounds coordinates `(x + dx, y + dy)`, `dx, dy ∈ {-1, 0, 1}`, divided by the number of those
coordinates and rounded down (not rounded to nearest). -/
theorem averageColor_truncated_mean (G : Image) (x y : Int) (hG : Rectangular G)
    (hx : 0 ≤ x ∧ x < (width G : Int)) (hy : 0 ≤ y ∧ y < (G.length : Int)) :
    ∃ c, averageColor G x y = some c ∧
      c.r.val = channelMean Color.r G x y ∧
      c.g.val = channelMean Color.g G x y ∧
      c.b.val = channelMean Color.b G x y := by
  have hin : inBounds G (x, y) := ⟨hx.1, hx.2, hy.1, hy.2⟩
  refine ⟨meanColor G x y, averageColor_eq hG hin, ?_, ?_, ?_⟩
  · exact toUInt8_natCast (Nat.lt_succ_of_le (channelMean_le Color.r G x y))
  · exact toUInt8_natCast (Nat.lt_succ_of_le (channelMean_le Color.g G x y))
  · exact toUInt8_natCast (Nat.lt_succ_of_le (channelMean_le Color.b G x y))

theorem averageColor_truncated_mean_witness :
    Rectangular sampleGrid ∧ channelSum Color.r sampleGrid 0 0 = 23 ∧
      (neighbours sampleGrid 0 0).length = 4 ∧ averageColor sampleGrid 0 0 = some ⟨5, 8, 11⟩ ∧
      ∃ c, averageColor sampleGrid 0 0 = some c ∧
        c.r.val = channelMean Color.r sampleGrid 0 0 ∧
        c.g.val = channelMean Color.g sampleGrid 0 0 ∧
        c.b.val = channelMean Color.b sampleGrid 0 0 :=
  ⟨by decide, by decide, by decide, by decide,
    averageColor_truncated_mean sampleGrid 0 0 (by decide) (by decide) (by decide)⟩

/-- C4. For every rectangular grid `G`, `sequentialBlur G` returns a grid with as many rows as
`G`, each row as long as the corresponding row of `G`, and its pixel in row `y`, column `x` is
`averageColor G x y`, computed on the input `G` itself. -/
theorem sequentialBlur_pixels (G : Image) (hG : Rectangular G) :
    ∃ out, sequentialBlur G = some out ∧
      out.length = G.length ∧
      out.map List.length = G.map List.length ∧
      ∀ x y : Nat, y < G.length → x < width G →
        ∃ row c, out[y]? = some row ∧ row[x]? = some c ∧
          averageColor G (x : Int) (y : Int) = some c := by
  refine ⟨blurredGrid G, sequentialBlur_eq hG, ?_, ?_, ?_⟩
  · simp [blurredGrid]
  · apply List.ext_getElem?
    intro k
    simp only [List.getElem?_map, blurredGrid_getElem?]
    by_cases hk : k < G.length
    · rw [if_pos hk, List.getElem?_eq_getElem hk]
      simp only [Option.map_some', blurredRow_length]
      rw [row_length_of_rect hG (List.getElem?_eq_getElem hk)]
    · rw [if_neg hk, List.getElem?_eq_none (by omega)]
  · intro x y hy hx
    refine ⟨blurredRow G y, meanColor G x y, ?_, ?_, ?_⟩
    · rw [blurredGrid_getElem?, if_pos hy]
    · simp [blurredRow, List.getElem?_range hx]
    · exact averageColor_eq hG ⟨Int.ofNat_nonneg x, by omega, Int.ofNat_nonneg y, by omega⟩

theorem sequentialBlur_pixels_witness :
    Rectangular sampleGrid ∧
      sequentialBlur sampleGrid
        = some [[⟨5, 8, 11⟩, ⟨63, 81, 92⟩, ⟨93, 120, 136⟩],
                [⟨5, 8, 11⟩, ⟨63, 81, 92⟩, ⟨93, 120, 136⟩]] ∧
      ∃ out, sequentialBlur sampleGrid = some out ∧
        out.length = sampleGrid.length ∧
        out.map List.length = sampleGrid.map List.length ∧
        ∀ x y : Nat, y < sampleGrid.length → x < width sampleGrid →
          ∃ row c, out[y]? = some row ∧ row[x]? = some c ∧
            averageColor sampleGrid (x : Int) (y : Int) = some c :=
  ⟨by decide, by decide, sequentialBlur_pixels sampleGrid (by decide)⟩

/-- C5. For every rectangular grid at least 2 wide and 2 high and every coordinate inside it,
the number of pixels `averageColor` sums (its `count`) is 4 at a corner (in particular at
`(0, 0)`), 6 on the border away from the corners, and 9 in the interior. -/
theorem averageColor_count (G : Image) (x y : Int) (hG : Rectangular G)
    (hw : 2 ≤ width G) (hh : 2 ≤ G.length)
    (hx : 0 ≤ x ∧ x < (width G : Int)) (hy : 0 ≤ y ∧ y < (G.length : Int)) :
    ∃ s, averageSums G x y = some s ∧
      s.count =
        if (x = 0 ∨ x = (width G : Int) - 1) ∧ (y = 0 ∨ y = (G.length : Int) - 1) then 4
        else if (x = 0 ∨ x = (width G : Int) - 1) ∨ (y = 0 ∨ y = (G.length : Int) - 1) then 6
        else 9 := by
  have hin : inBounds G (x, y) := ⟨hx.1, hx.2, hy.1, hy.2⟩
  refine ⟨_, averageSums_eq hG (ne_nil_of_inBounds hin) x y, ?_⟩
  rw [tally_count, neighbours_length hw hh hx hy]
  by_cases h1 : x = 0 ∨ x = (width G : Int) - 1
  · by_cases h2 : y = 0 ∨ y = (G.length : Int) - 1
    · rw [if_pos h1, if_pos h2, if_pos ⟨h1, h2⟩]
      rfl
    · rw [if_pos h1, if_neg h2, if_neg (fun h => h2 h.2), if_pos (Or.inl h1)]
      rfl
  · by_cases h2 : y = 0 ∨ y = (G.length : Int) - 1
    · rw [if_neg h1, if_pos h2, if_neg (fun h => h1 h.1), if_pos (Or.inr h2)]
      rfl
    · rw [if_neg h1, if_neg h2, if_neg (fun h => h1 h.1), if_neg (fun h => h.elim h1 h2)]
      rfl

theorem averageColor_count_witness :
    Rectangular sampleGrid ∧ 2 ≤ width sampleGrid ∧ 2 ≤ sampleGrid.length ∧
      averageSums sampleGrid 0 0 = some ⟨23, 35, 47, 4⟩ ∧
      averageSums sampleGrid 1 0 = some ⟨378, 490, 552, 6⟩ ∧
      ∃ s, averageSums sampleGrid 1 0 = some s ∧
        s.count =
          if ((1 : Int) = 0 ∨ (1 : Int) = (width sampleGrid : Int) - 1) ∧
              ((0 : Int) = 0 ∨ (0 : Int) = (sampleGrid.length : Int) - 1) then 4
          else if ((1 : Int) = 0 ∨ (1 : Int) = (width sampleGrid : Int) - 1) ∨
              ((0 : Int) = 0 ∨ (0 : Int) = (sampleGrid.length : Int) - 1) then 6
          else 9 :=
  ⟨by decide, by decide, by decide, by decide, by decide,
    averageColor_count sampleGrid 1 0 (by decide) (by decide) (by decide) (by decide)
      (by decide)⟩

/-- C6. For every rectangular grid `G` (empty or not) all of whose pixels have one colour `c`,
`sequentialBlur G` returns `G` and so does `parallel G N` for every `N ≥ 1`; in particular the
4 × 4 all-black grid blurs to the 4 × 4 all-black grid, sequentially and with `N` workers. -/
theorem uniform_blur_unchanged (G : Image) (c : Color) (N : Int) (hG : Rectangular G)
    (hu : Uniform G c) (hN : 1 ≤ N) :
    sequentialBlur G = some G ∧ parallel G N = some G ∧
      sequentialBlur blackGrid4 = some blackGrid4 ∧ parallel blackGrid4 N = some blackGrid4 := by
  have hb : Rectangular blackGrid4 := by decide
  have hub : Uniform blackGrid4 ⟨0, 0, 0⟩ := by decide
  refine ⟨?_, ?_, ?_, ?_⟩
  · rw [sequentialBlur_eq hG, blurredGrid_uniform hG hu]
  · rw [parallel_eq hG hN, blurredGrid_uniform hG hu]
  · rw [sequentialBlur_eq hb, blurredGrid_uniform hb hub]
  · rw [parallel_eq hb hN, blurredGrid_uniform hb hub]

theorem uniform_blur_unchanged_witness :
    Rectangular greyGrid2 ∧ Uniform greyGrid2 ⟨7, 7, 7⟩ ∧ (1 : Int) ≤ 3 ∧
      (sequentialBlur greyGrid2 = some greyGrid2 ∧ parallel greyGrid2 3 = some greyGrid2 ∧
        sequentialBlur blackGrid4 = some blackGrid4 ∧
        parallel blackGrid4 3 = some blackGrid4) :=
  ⟨by decide, by decide, by decide,
    uniform_blur_unchanged greyGrid2 ⟨7, 7, 7⟩ 3 (by decide) (by decide) (by decide)⟩

/-- C7. For every pixel `p`, `sequentialBlur` of the 1 × 1 grid `[[p]]` returns `[[p]]`, and
so does `parallel` for every `N ≥ 1`: the only in-bounds coordinate of the window of `(0, 0)`
is `(0, 0)` itself, so the loop takes exactly one sample, the pixel `p`. -/
theorem single_pixel_blur (p : Color) (N : Int) (hN : 1 ≤ N) :
    sequentialBlur [[p]] = some [[p]] ∧ parallel [[p]] N = some [[p]] ∧
      neighbours [[p]] 0 0 = [(0, 0)] ∧
      averageSums [[p]] 0 0 = some ⟨p.r.val, p.g.val, p.b.val, 1⟩ ∧
      averageColor [[p]] 0 0 = some p := by
  have hG : Rectangular [[p]] := by
    intro row hrow
    rw [List.mem_singleton.mp hrow]
    rfl
  have hu : Uniform [[p]] p := by
    intro row hrow q hq
    rw [List.mem_singleton.mp hrow] at hq
    exact List.mem_singleton.mp hq
  have hin : inBounds [[p]] ((0 : Int), (0 : Int)) := by
    simp [inBounds, width]
  have hn : neighbours [[p]] 0 0 = [(0, 0)] := rfl
  refine ⟨?_, ?_, hn, ?_, ?_⟩
  · rw [sequentialBlur_eq hG, blurredGrid_uniform hG hu]
  · rw [parallel_eq hG hN, blurredGrid_uniform hG hu]
  · rw [averageSums_eq hG (List.cons_ne_nil _ _), hn]
    simp [tally, Sums.push, pixelAt]
  · rw [averageColor_eq hG hin, meanColor_uniform hG hu hin]

theorem single_pixel_blur_witness :
    (1 : Int) ≤ 4 ∧
      (sequentialBlur [[(⟨9, 80, 255⟩ : Color)]] = some [[⟨9, 80, 255⟩]] ∧
        parallel [[(⟨9, 80, 255⟩ : Color)]] 4 = some [[⟨9, 80, 255⟩]] ∧
        neighbours [[(⟨9, 80, 255⟩ : Color)]] 0 0 = [(0, 0)] ∧
        averageSums [[(⟨9, 80, 255⟩ : Color)]] 0 0
          = some ⟨(9 : Fin 256).val, (80 : Fin 256).val, (255 : Fin 256).val, 1⟩ ∧
        averageColor [[(⟨9, 80, 255⟩ : Color)]] 0 0 = some ⟨9, 80, 255⟩) :=
  ⟨by decide, single_pixel_blur ⟨9, 80, 255⟩ 4 (by decide)⟩

/-- C8, as stated, fails: with `H = 1` row and `N = 2` workers, worker `1` has an index beyond
the row count, yet it is handed the range `[0, 1)`, which is not empty, and its task rewrites
both pixels of the row. -/
theorem surplus_worker_counterexample :
    (0 : Int) ≤ 1 ∧ (1 : Int) < 2 ∧ (1 : Int) ≤ 1 ∧
      (strips (rowGrid.length : Int) 2)[1]? = some (0, 1) ∧
      ¬ ((stripBounds 1 2 1).2 ≤ (stripBounds 1 2 1).1) ∧
      blur_task ⟨rowGrid, rowGrid⟩ (stripBounds 1 2 1).1 (stripBounds 1 2 1).2
        = some ⟨rowGrid, [[⟨127, 127, 127⟩, ⟨127, 127, 127⟩]]⟩ := by
  decide

/-- C8, amended. For every height `H` and worker count `N` with `N > H ≥ 0`, every worker but
the last (index `0 ≤ i < N - 1`) is handed the empty range `[0, 0)`, and a task on that range
returns leaving the captured grids as they were; the last worker (index `N - 1`) is handed
the whole range `[0, H)`. -/
theorem surplus_workers_idle (H N : Int) (hH : 0 ≤ H) (hN : H < N) :
    (∀ i : Int, 0 ≤ i → i < N - 1 → stripBounds H N i = (0, 0)) ∧
      stripBounds H N (N - 1) = (0, H) ∧
      (∀ env : Captures, blur_task env 0 0 = some env) := by
  have hs : H.tdiv N = 0 := Int.tdiv_eq_zero_of_lt hH hN
  refine ⟨?_, ?_, fun env => blur_task_empty env (Int.le_refl 0)⟩
  · intro i _ hi
    have hne : i ≠ N - 1 := by omega
    simp [stripBounds, hs, hne]
  · simp [stripBounds, hs]

theorem surplus_workers_idle_witness :
    (0 : Int) ≤ 2 ∧ (2 : Int) < 4 ∧ strips 2 4 = [(0, 0), (0, 0), (0, 0), (0, 2)] ∧
      ((∀ i : Int, 0 ≤ i → i < 4 - 1 → stripBounds 2 4 i = (0, 0)) ∧
        stripBounds 2 4 (4 - 1) = (0, 2) ∧
        (∀ env : Captures, blur_task env 0 0 = some env)) :=
  ⟨by decide, by decide, by decide, surplus_workers_idle 2 4 (by decide) (by decide)⟩

/-- C9. For every `H ≥ 0` and `N ≥ 1` the strip ranges are listed in non-decreasing order of
start row; each of the first `N - 1` ranges has exactly `H / N` rows and the last one has
`H / N + H mod N` rows; and when `N ≤ H` every range is non-empty. -/
theorem strips_ordered_sized (H N : Int) (hH : 0 ≤ H) (hN : 1 ≤ N) :
    (strips H N).Pairwise (fun a b => a.1 ≤ b.1) ∧
    (∀ i : Nat, (i : Int) < N - 1 →
      ∃ t, (strips H N)[i]? = some t ∧ t.2 - t.1 = H.tdiv N) ∧
    (∃ t, (strips H N)[(N - 1).toNat]? = some t ∧ t.2 - t.1 = H.tdiv N + H.tmod N) ∧
    (N ≤ H → ∀ t ∈ strips H N, t.1 < t.2) := by
  obtain ⟨hs, hle, hlt, hmod⟩ := strip_height_facts hH hN
  have hlast : (N - 1) * H.tdiv N = N * H.tdiv N - H.tdiv N := by
    rw [Int.sub_mul, Int.one_mul]
  refine ⟨?_, ?_, ?_, ?_⟩
  · unfold strips
    rw [List.pairwise_map]
    refine List.Pairwise.imp ?_ (List.pairwise_lt_range N.toNat)
    intro i j hij
    simp only [stripBounds_fst]
    exact Int.mul_le_mul_of_nonneg_right (by omega) hs
  · intro i hi
    refine ⟨stripBounds H N (i : Int), strips_getElem? H N (by omega), ?_⟩
    rw [stripBounds_snd_of_ne (by omega), stripBounds_fst, Int.add_mul, Int.one_mul]
    omega
  · refine ⟨stripBounds H N (N - 1), ?_, ?_⟩
    · rw [strips_getElem? H N (by omega), Int.toNat_of_nonneg (by omega)]
    · rw [stripBounds_snd_last, stripBounds_fst, hmod]
      omega
  · intro hNH t ht
    obtain ⟨i, hi, rfl⟩ := mem_strips.mp ht
    have hpos : 1 ≤ H.tdiv N := by
      by_contra hc
      have h0 : H.tdiv N = 0 := by omega
      rw [h0] at hlt
      omega
    by_cases hl : (i : Int) = N - 1
    · rw [hl, stripBounds_snd_last, stripBounds_fst]
      omega
    · rw [stripBounds_snd_of_ne hl, stripBounds_fst, Int.add_mul, Int.one_mul]
      omega

theorem strips_ordered_sized_witness :
    (0 : Int) ≤ 11 ∧ (1 : Int) ≤ 3 ∧ strips 11 3 = [(0, 3), (3, 6), (6, 11)] ∧
      (3 : Int) ≤ 11 ∧ ∀ t ∈ strips 11 3, t.1 < t.2 :=
  ⟨by decide, by decide, by decide, by decide,
    (strips_ordered_sized 11 3 (by decide) (by decide)).2.2.2 (by decide)⟩

/-- C10. For every rectangular input grid, every output grid of the same dimensions and every
strip `[start, end)` with `0 ≤ start` and `end ≤ height` (whether or not `start ≤ end`), one
worker's `blur_task(start, end)` returns, leaves the captured input grid as it was, keeps the
number of output rows, and leaves every output row `y` outside `[start, end)` exactly as it
was. -/
theorem blur_task_frame (input output : Image) (s e : Int) (hr : Rectangular input)
    (hd : SameDims input output) (hs : 0 ≤ s) (he : e ≤ (input.length : Int)) :
    ∃ env, blur_task ⟨input, output⟩ s e = some env ∧
      env.input = input ∧
      env.output.length = output.length ∧
      ∀ k : Nat, ¬ (s ≤ (k : Int) ∧ (k : Int) < e) → env.output[k]? = output[k]? := by
  obtain ⟨out, h1, h2, h3⟩ := blur_task_eq hr output hd hs he
  refine ⟨⟨input, out⟩, h1, rfl, ?_, ?_⟩
  · rw [sameDims_length h2, sameDims_length hd]
  · intro k hk
    rw [h3 k, if_neg hk]

theorem blur_task_frame_witness :
    Rectangular sampleGrid ∧ SameDims sampleGrid sampleGrid ∧
      blur_task ⟨sampleGrid, sampleGrid⟩ 1 2
        = some ⟨sampleGrid, [[⟨1, 2, 3⟩, ⟨10, 20, 30⟩, ⟨100, 200, 250⟩],
                             [⟨5, 8, 11⟩, ⟨63, 81, 92⟩, ⟨93, 120, 136⟩]]⟩ ∧
      ∃ env, blur_task ⟨sampleGrid, sampleGrid⟩ 1 2 = some env ∧
        env.input = sampleGrid ∧
        env.output.length = sampleGrid.length ∧
        ∀ k : Nat, ¬ ((1 : Int) ≤ (k : Int) ∧ (k : Int) < 2) →
          env.output[k]? = sampleGrid[k]? :=
  ⟨by decide, by decide, by decide,
    blur_task_frame sampleGrid sampleGrid 1 2 (by decide) (by decide) (by decide) (by decide)⟩

/-- C11. For every rectangular grid `G` and `N ≥ 1`, running the `N` strip tasks of
`parallel G N` on the output copy in any order (any permutation of the list of strips) ends
with the grid that `parallel G N` returns. -/
theorem parallel_order_independent (G : Image) (N : Int) (tasks : List (Int × Int))
    (hG : Rectangular G) (hN : 1 ≤ N) (hp : tasks.Perm (strips (G.length : Int) N)) :
    (runTasks ⟨G, G⟩ tasks).map (fun e => e.output) = parallel G N ∧
      ∃ out, parallel G N = some out := by
  have hH : (0 : Int) ≤ (G.length : Int) := Int.ofNat_nonneg _
  have hrun : runTasks ⟨G, G⟩ tasks = some ⟨G, blurredGrid G⟩ := by
    apply runTasks_of_cover hG tasks
    · intro t ht
      exact strips_within hH hN (hp.mem_iff.mp ht)
    · intro k hk
      obtain ⟨t, ht, h⟩ := strips_cover hH hN (Int.ofNat_nonneg k)
        (show (k : Int) < (G.length : Int) by omega)
      exact ⟨t, hp.mem_iff.mpr ht, h⟩
  rw [hrun, parallel_eq hG hN]
  exact ⟨rfl, _, rfl⟩

theorem parallel_order_independent_witness :
    Rectangular sampleGrid ∧ (1 : Int) ≤ 2 ∧
      strips (sampleGrid.length : Int) 2 = [(0, 1), (1, 2)] ∧
      ((runTasks ⟨sampleGrid, sampleGrid⟩ [(1, 2), (0, 1)]).map (fun e => e.output)
          = parallel sampleGrid 2 ∧
        ∃ out, parallel sampleGrid 2 = some out) :=
  ⟨by decide, by decide, by decide,
    parallel_order_independent sampleGrid 2 [(1, 2), (0, 1)] (by decide) (by decide)
      (List.Perm.swap _ _ _)⟩

/-- C12. In `atomicExample` with `N` workers each performing `K` increments (in the code
`N = 4`, `K = 1000000`), under every interleaving of the workers' steps that runs until all
workers can be joined, the mutex-guarded counter and the atomic counter both end at `N * K`.
Moreover, in both trials every run from the start takes at most `4 * N * K` (respectively
`N * K`) steps, is never stuck before all workers have left their loops, and can be continued
to a state where all workers are joined and the counter is `N * K`. -/
theorem counters_reach_product (N K : Nat) (schedM schedA : List Nat) (m : MutexTrial)
    (a : AtomicTrial)
    (hm : runMutex K (initMutex N) schedM = some m) (hjm : joinedMutex K m)
    (ha : runAtomic K (initAtomic N) schedA = some a) (hja : joinedAtomic K a) :
    m.counter = (N : Int) * (K : Int) ∧ a.counter = (N : Int) * (K : Int) ∧
    (∀ sched st, runMutex K (initMutex N) sched = some st →
      sched.length ≤ 4 * N * K ∧
      (¬ joinedMutex K st → ∃ t, t < N ∧ ∃ st2, stepMutex K st t = some st2) ∧
      ∃ more st2, runMutex K st more = some st2 ∧ joinedMutex K st2 ∧
        st2.counter = (N : Int) * (K : Int)) ∧
    (∀ sched st, runAtomic K (initAtomic N) sched = some st →
      sched.length ≤ N * K ∧
      (¬ joinedAtomic K st → ∃ t, t < N ∧ ∃ st2, stepAtomic K st t = some st2) ∧
      ∃ more st2, runAtomic K st more = some st2 ∧ joinedAtomic K st2 ∧
        st2.counter = (N : Int) * (K : Int)) := by
  refine ⟨?_, ?_, ?_, ?_⟩
  · obtain ⟨hI, _, hl⟩ := runMutex_inv schedM (initMutex_inv N K) hm
    rw [counter_of_joined hI hjm, hl, initMutex_length]
  · obtain ⟨hI, _, hl⟩ := runAtomic_inv schedA (initAtomic_inv N K) ha
    rw [atomic_counter_of_joined hI hja, hl, initAtomic_length]
  · intro sched st hrun
    obtain ⟨hI, hrem, hl⟩ := runMutex_inv sched (initMutex_inv N K) hrun
    rw [initMutex_remaining] at hrem
    rw [initMutex_length] at hl
    have hnn := remainingMutex_nonneg hI
    refine ⟨?_, ?_, ?_⟩
    · have : (sched.length : Int) ≤ ((4 * N * K : Nat) : Int) := by
        push_cast
        omega
      exact Int.ofNat_le.mp this
    · intro hnj
      obtain ⟨t, ht, hstep⟩ := mutex_progress hI hnj
      exact ⟨t, by omega, hstep⟩
    · obtain ⟨more, st2, hrun2, hj2, _⟩ :=
        mutex_complete (remainingMutex K st).toNat st hI (Int.toNat_of_nonneg hnn).symm
      obtain ⟨hI2, _, hl2⟩ := runMutex_inv more hI hrun2
      exact ⟨more, st2, hrun2, hj2, by rw [counter_of_joined hI2 hj2, hl2, hl]⟩
  · intro sched st hrun
    obtain ⟨hI, hrem, hl⟩ := runAtomic_inv sched (initAtomic_inv N K) hrun
    rw [initAtomic_remaining] at hrem
    rw [initAtomic_length] at hl
    have hnn := remainingAtomic_nonneg hI
    refine ⟨?_, ?_, ?_⟩
    · have : (sched.length : Int) ≤ ((N * K : Nat) : Int) := by
        push_cast
        omega
      exact Int.ofNat_le.mp this
    · intro hnj
      obtain ⟨t, ht, hstep⟩ := atomic_progress hnj
      exact ⟨t, by omega, hstep⟩
    · obtain ⟨more, st2, hrun2, hj2, _⟩ :=
        atomic_complete (remainingAtomic K st).toNat st hI (Int.toNat_of_nonneg hnn).symm
      obtain ⟨hI2, _, hl2⟩ := runAtomic_inv more hI hrun2
      exact ⟨more, st2, hrun2, hj2, by rw [atomic_counter_of_joined hI2 hj2, hl2, hl]⟩

theorem counters_reach_product_witness :
    runMutex 2 (initMutex 2) [0, 0, 0, 0, 1, 1, 1, 1, 1, 1, 1, 1, 0, 0, 0, 0]
        = some ⟨4, none, [⟨2, Pc.lock, 3⟩, ⟨2, Pc.lock, 2⟩]⟩ ∧
      runAtomic 2 (initAtomic 2) [0, 1, 1, 0] = some ⟨4, [2, 2]⟩ ∧
      runMutex 2 (initMutex 2) [0, 1] = none ∧
      (⟨4, none, [⟨2, Pc.lock, 3⟩, ⟨2, Pc.lock, 2⟩]⟩ : MutexTrial).counter
        = ((2 : Nat) : Int) * ((2 : Nat) : Int) ∧
      (⟨4, [2, 2]⟩ : AtomicTrial).counter = ((2 : Nat) : Int) * ((2 : Nat) : Int) :=
  ⟨by decide, by decide, by decide,
    (counters_reach_product 2 2 [0, 0, 0, 0, 1, 1, 1, 1, 1, 1, 1, 1, 0, 0, 0, 0] [0, 1, 1, 0]
      ⟨4, none, [⟨2, Pc.lock, 3⟩, ⟨2, Pc.lock, 2⟩]⟩ ⟨4, [2, 2]⟩
      (by decide) (by decide) (by decide) (by decide)).1,
    (counters_reach_product 2 2 [0, 0, 0, 0, 1, 1, 1, 1, 1, 1, 1, 1, 0, 0, 0, 0] [0, 1, 1, 0]
      ⟨4, none, [⟨2, Pc.lock, 3⟩, ⟨2, Pc.lock, 2⟩]⟩ ⟨4, [2, 2]⟩
      (by decide) (by decide) (by decide) (by decide)).2.1⟩

/-- C13. For every rectangular grid and every coordinate `(x, y)` inside it (so the grid is not
empty), `averageColor` returns a pixel: it neither divides by zero nor indexes out of range.
Its sample count is at least 1 and at most 9, the pixel `(x, y)` itself is among the samples,
and every pair `(nx, ny)` it reads satisfies `0 ≤ nx < width` and `0 ≤ ny < height` and is a
valid index into the grid. -/
theorem averageColor_safe (G : Image) (x y : Int) (hG : Rectangular G)
    (hx : 0 ≤ x ∧ x < (width G : Int)) (hy : 0 ≤ y ∧ y < (G.length : Int)) :
    ∃ s reads c, averageSumsTraced G x y = some (s, reads) ∧
      averageSums G x y = some s ∧
      averageColor G x y = some c ∧
      1 ≤ s.count ∧ s.count ≤ 9 ∧
      (x, y) ∈ reads ∧
      ∀ p ∈ reads,
        (0 ≤ p.1 ∧ p.1 < (width G : Int) ∧ 0 ≤ p.2 ∧ p.2 < (G.length : Int)) ∧
        ∃ row q, G[p.2.toNat]? = some row ∧ row[p.1.toNat]? = some q := by
  have hin : inBounds G (x, y) := ⟨hx.1, hx.2, hy.1, hy.2⟩
  have hne := ne_nil_of_inBounds hin
  have hpos := neighbours_length_pos hin
  have hle := neighbours_length_le G x y
  refine ⟨_, _, _, averageSumsTraced_eq hG hne x y, averageSums_eq hG hne x y,
    averageColor_eq hG hin, ?_, ?_, self_mem_neighbours hin, ?_⟩
  · rw [tally_count]
    simp only [Int.zero_add]
    omega
  · rw [tally_count]
    simp only [Int.zero_add]
    omega
  · intro p hp
    have hb := inBounds_of_mem_neighbours hp
    exact ⟨hb, index_ok hG hb⟩

theorem averageColor_safe_witness :
    Rectangular sampleGrid ∧
      averageSumsTraced sampleGrid 2 1
        = some (⟨372, 483, 544, 4⟩, [(1, 0), (2, 0), (1, 1), (2, 1)]) ∧
      ∃ s reads c, averageSumsTraced sampleGrid 2 1 = some (s, reads) ∧
        averageSums sampleGrid 2 1 = some s ∧
        averageColor sampleGrid 2 1 = some c ∧
        1 ≤ s.count ∧ s.count ≤ 9 ∧
        ((2 : Int), (1 : Int)) ∈ reads ∧
        ∀ p ∈ reads,
          (0 ≤ p.1 ∧ p.1 < (width sampleGrid : Int) ∧ 0 ≤ p.2 ∧
            p.2 < (sampleGrid.length : Int)) ∧
          ∃ row q, sampleGrid[p.2.toNat]? = some row ∧ row[p.1.toNat]? = some q :=
  ⟨by decide, by decide,
    averageColor_safe sampleGrid 2 1 (by decide) (by decide) (by decide)⟩

/-- C14. For every rectangular grid and every coordinate `(x, y)` inside it, each channel
quotient `sum / count` computed by `averageColor` lies between the least and the greatest value
of that channel over the sampled neighbourhood (both attained by a sampled pixel), hence in
`[0, 255]`, and the channel stored after `static_cast<uint8_t>` equals the quotient itself. -/
theorem averageColor_no_wrap (G : Image) (x y : Int) (hG : Rectangular G)
    (hx : 0 ≤ x ∧ x < (width G : Int)) (hy : 0 ≤ y ∧ y < (G.length : Int)) :
    ∃ s c, averageSums G x y = some s ∧ averageColor G x y = some c ∧
      ((c.r.val : Int) = s.sum_r.tdiv s.count ∧
        (channelMin Color.r G x y : Int) ≤ s.sum_r.tdiv s.count ∧
        s.sum_r.tdiv s.count ≤ (channelMax Color.r G x y : Int) ∧
        0 ≤ s.sum_r.tdiv s.count ∧ s.sum_r.tdiv s.count ≤ 255) ∧
      ((c.g.val : Int) = s.sum_g.tdiv s.count ∧
        (channelMin Color.g G x y : Int) ≤ s.sum_g.tdiv s.count ∧
        s.sum_g.tdiv s.count ≤ (channelMax Color.g G x y : Int) ∧
        0 ≤ s.sum_g.tdiv s.count ∧ s.sum_g.tdiv s.count ≤ 255) ∧
      ((c.b.val : Int) = s.sum_b.tdiv s.count ∧
        (channelMin Color.b G x y : Int) ≤ s.sum_b.tdiv s.count ∧
        s.sum_b.tdiv s.count ≤ (channelMax Color.b G x y : Int) ∧
        0 ≤ s.sum_b.tdiv s.count ∧ s.sum_b.tdiv s.count ≤ 255) ∧
      ∀ ch : Color → Fin 256,
        (∃ p ∈ neighbours G x y, (ch (pixelAt G p.1 p.2)).val = channelMin ch G x y) ∧
        (∃ p ∈ neighbours G x y, (ch (pixelAt G p.1 p.2)).val = channelMax ch G x y) := by
  have hin : inBounds G (x, y) := ⟨hx.1, hx.2, hy.1, hy.2⟩
  obtain ⟨qr, qg, qb⟩ := tally_quotients G x y
  obtain ⟨vr, vg, vb⟩ := meanColor_val G x y
  refine ⟨_, _, averageSums_eq hG (ne_nil_of_inBounds hin) x y, averageColor_eq hG hin,
    ?_, ?_, ?_, fun ch => ⟨channelMin_attained ch hin, channelMax_attained ch hin⟩⟩
  · rw [qr, vr]
    exact ⟨rfl, quotient_range Color.r hin⟩
  · rw [qg, vg]
    exact ⟨rfl, quotient_range Color.g hin⟩
  · rw [qb, vb]
    exact ⟨rfl, quotient_range Color.b hin⟩

theorem averageColor_no_wrap_witness :
    Rectangular sampleGrid ∧
      averageSums sampleGrid 2 1 = some ⟨372, 483, 544, 4⟩ ∧
      averageColor sampleGrid 2 1 = some ⟨93, 120, 136⟩ ∧
      channelMin Color.r sampleGrid 2 1 = 7 ∧ channelMax Color.r sampleGrid 2 1 = 255 ∧
      ∃ s c, averageSums sampleGrid 2 1 = some s ∧ averageColor sampleGrid 2 1 = some c ∧
        ((c.r.val : Int) = s.sum_r.tdiv s.count ∧
          (channelMin Color.r sampleGrid 2 1 : Int) ≤ s.sum_r.tdiv s.count ∧
          s.sum_r.tdiv s.count ≤ (channelMax Color.r sampleGrid 2 1 : Int) ∧
          0 ≤ s.sum_r.tdiv s.count ∧ s.sum_r.tdiv s.count ≤ 255) ∧
        ((c.g.val : Int) = s.sum_g.tdiv s.count ∧
          (channelMin Color.g sampleGrid 2 1 : Int) ≤ s.sum_g.tdiv s.count ∧
          s.sum_g.tdiv s.count ≤ (channelMax Color.g sampleGrid 2 1 : Int) ∧
          0 ≤ s.sum_g.tdiv s.count ∧ s.sum_g.tdiv s.count ≤ 255) ∧
        ((c.b.val : Int) = s.sum_b.tdiv s.count ∧
          (channelMin Color.b sampleGrid 2 1 : Int) ≤ s.sum_b.tdiv s.count ∧
          s.sum_b.tdiv s.count ≤ (channelMax Color.b sampleGrid 2 1 : Int) ∧
          0 ≤ s.sum_b.tdiv s.count ∧ s.sum_b.tdiv s.count ≤ 255) ∧
        ∀ ch : Color → Fin 256,
          (∃ p ∈ neighbours sampleGrid 2 1,
            (ch (pixelAt sampleGrid p.1 p.2)).val = channelMin ch sampleGrid 2 1) ∧
          (∃ p ∈ neighbours sampleGrid 2 1,
            (ch (pixelAt sampleGrid p.1 p.2)).val = channelMax ch sampleGrid 2 1) :=
  ⟨by decide, by decide, by decide, by decide, by decide,
    averageColor_no_wrap sampleGrid 2 1 (by decide) (by decide) (by decide)⟩

/-- C15. For every grid `G` (rectangular or not) and every negative worker count `N < 0`,
`parallel G N` launches no worker (its list of strips is empty) and returns the input `G`
itself, unblurred. -/
theorem parallel_negative_threads (G : Image) (N : Int) (hN : N < 0) :
    strips (G.length : Int) N = [] ∧ parallel G N = some G := by
  have hs : strips (G.length : Int) N = [] := strips_neg hN
  refine ⟨hs, ?_⟩
  unfold parallel
  rw [if_neg (by omega), hs]
  rfl

theorem parallel_negative_threads_witness :
    (-3 : Int) < 0 ∧ sequentialBlur sampleGrid ≠ some sampleGrid ∧
      (strips (sampleGrid.length : Int) (-3) = [] ∧ parallel sampleGrid (-3) = some sampleGrid) :=
  ⟨by decide, by decide, parallel_negative_threads sampleGrid (-3) (by decide)⟩


end Blur
